import Mathlib

/-!
# Verification of the stoic-sage retrieval and selection core

A shallow embedding of `src/weighted-random.ts` (weighted selection engine and
hybrid search module) and the query-fusion layer of `src/notes.ts`.

Modelling conventions:
* JavaScript numbers are modelled as `ℚ` (exact rationals); the only
  transcendental operation in the source, `Math.log2` in the selection weight,
  is modelled over `ℝ` with `Real.logb 2`.
* JavaScript strings are `String`/`List Char`; `toLowerCase` is `Char.toLower`
  (ASCII case mapping, which covers every character the corpus and the fixed
  tables use).
* A JavaScript `Map` is an association list with insert-preserves-position /
  append-on-new-key update, mirroring `Map.set` iteration-order semantics.
* SQL result order is not specified by the queries in the source (no
  `ORDER BY`); results are modelled in database (row) order.  No claim below
  depends on that order.
* `Date.now()` and the external semantic fetch are explicit inputs
  (`now : ℚ` in epoch milliseconds, `semFetch : Except Unit _`).
-/

namespace StoicSage

/-! ## Text normalizer (`normalizeText`, `tokenizeQuery`, `expandTokens`) -/

/-- Characters kept by `normalizeText`: the class `[a-z0-9]` after
lowercasing; every other character becomes a separator
(`replace(/[^a-z0-9\s]+/g, " ")` followed by `replace(/\s+/g, " ")`). -/
def isQueryChar (c : Char) : Bool :=
  ('a' ≤ c && c ≤ 'z') || ('0' ≤ c && c ≤ '9')

/-- `normalizeText` on character lists: lowercase, collapse every maximal run
of non-alphanumeric characters to a single space, trim. -/
def normalizeTextL (s : List Char) : List Char :=
  let mapped := s.map (fun c =>
    let l := c.toLower
    if isQueryChar l then l else ' ')
  List.intercalate [' '] ((mapped.splitOn ' ').filter (· ≠ []))

/-- `normalizeText` from the source. -/
def normalizeText (text : String) : String :=
  ⟨normalizeTextL text.data⟩

/-- `s.toLowerCase()` at character level (ASCII case mapping). -/
def strLower (s : String) : String := ⟨s.data.map Char.toLower⟩

/-- `s.trim()` on character lists (ASCII whitespace). -/
def trimL (s : List Char) : List Char :=
  ((s.dropWhile Char.isWhitespace).reverse.dropWhile Char.isWhitespace).reverse

/-- `s.trim()` at character level. -/
def strTrim (s : String) : String := ⟨trimL s.data⟩

/-- The stop-word set `STOP_WORDS` from the source. -/
def STOP_WORDS : List String :=
  ["a", "an", "and", "are", "as", "at", "be", "but", "by", "for", "from",
   "how", "i", "in", "is", "it", "of", "on", "or", "that", "the", "their",
   "this", "to", "was", "what", "when", "where", "which", "who", "why",
   "with", "you", "your"]

/-- First-occurrence deduplication, the semantics of `[...new Set(l)]`. -/
def dedupFirstAux (seen : List String) : List String → List String
  | [] => []
  | t :: ts =>
    if t ∈ seen then dedupFirstAux seen ts
    else t :: dedupFirstAux (t :: seen) ts

/-- `[...new Set(l)]`: deduplicate keeping first occurrences in order. -/
def dedupFirst (l : List String) : List String := dedupFirstAux [] l

/-- `tokenizeQuery` from the source: split the normalized query on spaces,
keep trimmed terms of length ≥ 3 that are not stop words, deduplicate
(first occurrence), cap at 12 tokens. -/
def tokenizeQuery (normalizedQuery : String) : List String :=
  let terms := (((normalizedQuery.data.splitOn ' ').map
      (fun cs => strTrim ⟨cs⟩)).filter
    (fun t => 3 ≤ t.length && !(STOP_WORDS.contains t)))
  (dedupFirst terms).take 12

/-- The domain synonym table `STOIC_EXPANSIONS` from the source. -/
def STOIC_EXPANSIONS : List (String × List String) :=
  [("anger", ["rage", "temper", "provocation"]),
   ("anxiety", ["worry", "fear", "unease", "calm"]),
   ("control", ["choice", "judgment", "agency", "dichotomy"]),
   ("courage", ["bravery", "fortitude"]),
   ("death", ["mortality", "memento", "mori"]),
   ("fate", ["amor", "fati", "acceptance"]),
   ("grief", ["loss", "mourning"]),
   ("justice", ["fairness", "duty"]),
   ("resilience", ["adversity", "hardship", "endurance"]),
   ("virtue", ["wisdom", "justice", "courage", "temperance"]),
   ("wisdom", ["judgment", "reason"])]

/-- `expandTokens` from the source: union of synonym expansions of length ≥ 3
not already among the tokens, in first-insertion order (`Set` semantics). -/
def expandTokens (tokens : List String) : List String :=
  dedupFirst (tokens.flatMap (fun token =>
    ((STOIC_EXPANSIONS.lookup token).getD []).filter
      (fun a => 3 ≤ a.length && !(tokens.contains a))))

/-! ## Citation parser (`parseCitation`) -/

/-- A parsed citation `{source?, book, entry}`. -/
structure Citation where
  source : Option String
  book : ℕ
  entry : String
deriving DecidableEq, Repr

/-- The fixed corpus identifier list `SEARCHABLE_SOURCES`, in source order
(also the alternation order of the citation regex). -/
def SEARCHABLE_SOURCES : List String :=
  ["meditations", "discourses", "enchiridion", "fragments",
   "seneca-tranquillity", "seneca-shortness"]

def isSearchableSource (source : String) : Bool :=
  SEARCHABLE_SOURCES.contains source

/-- The letter class `[a-z]` under the regex `i` flag: either case. -/
def isCitationLetter (c : Char) : Bool :=
  'a' ≤ c.toLower && c.toLower ≤ 'z'

/-- `parseInt(·, 10)` on a list of decimal digits. -/
def digitsToNat (ds : List Char) : ℕ :=
  ds.foldl (fun n c => 10 * n + (c.toNat - '0'.toNat)) 0

/-- Case-insensitive match of `tag` as a prefix of `cs`; returns the rest. -/
def stripPrefixCI (tag : List Char) (cs : List Char) : Option (List Char) :=
  if (cs.take tag.length).map Char.toLower = tag then some (cs.drop tag.length)
  else none

/-- The optional group `(?:(meditations|…|seneca-shortness)\s+)?` of the
citation regex: a known source identifier (case-insensitive), followed by at
least one whitespace character; returns the canonical identifier and the rest
after all whitespace. -/
def stripSourceTag (cs : List Char) : Option (String × List Char) :=
  (SEARCHABLE_SOURCES.firstM (fun name => do
    let rest ← stripPrefixCI name.data cs
    match rest with
    | c :: _ =>
      if c.isWhitespace then some (name, rest.dropWhile Char.isWhitespace)
      else none
    | [] => none))

/-- The anchored body `(\d+)\.(\d+[a-z]?)$` of the citation regex (with the
`i` flag the optional letter may be either case); the entry token is
lowercased as in `match[3].toLowerCase()`. -/
def parseBookEntry (cs : List Char) : Option (ℕ × String) :=
  let d1 := cs.takeWhile Char.isDigit
  let r1 := cs.dropWhile Char.isDigit
  if d1 = [] then none
  else
    match r1 with
    | '.' :: r2 =>
      let d2 := r2.takeWhile Char.isDigit
      let r3 := r2.dropWhile Char.isDigit
      if d2 = [] then none
      else
        match r3 with
        | [] => some (digitsToNat d1, ⟨d2⟩)
        | [c] =>
          if isCitationLetter c then some (digitsToNat d1, ⟨d2 ++ [c.toLower]⟩)
          else none
        | _ => none
    | _ => none

/-- `parseCitation` from the source: a strict total match of
`^(?:(<sources>)\s+)?(\d+)\.(\d+[a-z]?)$/i` against the trimmed query. -/
def parseCitation (rawQuery : String) : Option Citation :=
  let cs := trimL rawQuery.data
  match stripSourceTag cs with
  | some (src, rest) => (parseBookEntry rest).map (fun be => ⟨some src, be.1, be.2⟩)
  | none => (parseBookEntry cs).map (fun be => ⟨none, be.1, be.2⟩)

/-! ## Substring and occurrence primitives -/

/-- `haystack.includes(needle)` (JavaScript substring containment; the empty
needle is contained in everything). -/
def containsSub : List Char → List Char → Bool
  | h, n =>
    n.isPrefixOf h ||
      (match h with
       | [] => false
       | _ :: t => containsSub t n)

/-- `countOccurrences` from the source: non-overlapping left-to-right count
(`indexOf` loop advancing by the needle's length). -/
def countOccurrences : List Char → List Char → ℕ
  | _, [] => 0
  | [], _ :: _ => 0
  | c :: rest, n :: ns =>
    if (n :: ns).isPrefixOf (c :: rest) then
      1 + countOccurrences (rest.drop ns.length) (n :: ns)
    else
      countOccurrences rest (n :: ns)
termination_by h _ => h.length
decreasing_by
  · simp only [List.length_cons]
    have := List.length_drop ns.length rest
    omega
  · simp

/-! ## Data model of the search module -/

/-- A database row of the `entries` table (`source, book, entry, text`). -/
structure EntryRow where
  source : String
  book : ℕ
  entry : String
  text : String
deriving DecidableEq, Repr

/-- A deduplicated semantic hit as produced by `fetchSemanticCandidates`. -/
structure SemanticCandidate where
  source : String
  book : ℕ
  entry : String
  score : ℚ
deriving DecidableEq, Repr

/-- `SearchOptions` from the source (all fields optional). -/
structure SearchOptions where
  topK : Option ℕ := none
  semanticTopK : Option ℕ := none
  lexicalLimit : Option ℕ := none
  diversitySoftCap : Option ℕ := none
deriving DecidableEq, Repr

/-- `SearchResult` from the source. -/
structure SearchResult where
  source : String
  book : ℕ
  entry : String
  text : String
  score : ℚ
  weightedScore : ℚ
deriving DecidableEq, Repr

/-- The composite key `` `${source}-${book}-${entry}` `` (`keyFor`). -/
def keyFor (source : String) (book : ℕ) (entry : String) : String :=
  source ++ "-" ++ toString book ++ "-" ++ entry

def rowKey (r : EntryRow) : String := keyFor r.source r.book r.entry

/-! ## JavaScript `Map` as an association list

`Map.set` updates an existing key in place (keeping its position) and appends
a new key; iteration is in that order. -/

/-- `map.get(k)` (`undefined` as `none`). -/
def alGet {β : Type} (m : List (String × β)) (k : String) : Option β :=
  (m.find? (fun p => p.1 == k)).map (·.2)

/-- `map.set(k, v)`. -/
def alSet {β : Type} (m : List (String × β)) (k : String) (v : β) :
    List (String × β) :=
  if m.any (fun p => p.1 == k) then
    m.map (fun p => if p.1 == k then (k, v) else p)
  else m ++ [(k, v)]

/-! ## Score normalization and weights -/

/-- `roundScore`: `Math.round(value * 1e8) / 1e8` (`Math.round` is
`⌊x + 1/2⌋`, half toward `+∞`). -/
def roundScore (value : ℚ) : ℚ :=
  (⌊value * 100000000 + 1/2⌋ : ℚ) / 100000000

/-- `normalizeScore` from the source: linear min-max scaling with the guards
`max ≤ 0 → 0` and `max = min → 1`. -/
def normalizeScore (value mn mx : ℚ) : ℚ :=
  if mx ≤ 0 then 0
  else if mx = mn then 1
  else (value - mn) / (mx - mn)

/-- `normalizeSemanticScore` from the source: degenerate spreads are clamped
from known cosine ranges instead of being stretched; otherwise clamped
min-max scaling.  (`0.05` is the rational `1/20`.) -/
def normalizeSemanticScore (value mn mx : ℚ) : ℚ :=
  let spread := mx - mn
  if spread ≤ 0 then max 0 (min value 1)
  else if spread < 1/20 ∧ 0 ≤ mn ∧ mx ≤ 1 then max 0 (min value 1)
  else if spread < 1/20 ∧ -1 ≤ mn ∧ mx ≤ 1 then max 0 (min ((value + 1) / 2) 1)
  else max 0 (min (normalizeScore value mn mx) 1)

/-- The shared source-priority table `REFLECTION_WEIGHTS.SOURCE_WEIGHTS`. -/
def SOURCE_WEIGHTS : List (String × ℚ) :=
  [("meditations", 1), ("seneca-tranquillity", 17/20), ("seneca-shortness", 17/20),
   ("discourses", 17/20), ("enchiridion", 17/20), ("fragments", 3/4)]

/-- Table lookup with default `1.0` (the table has no zero/absent-falsy
values, so `|| 1.0` and `?? 1.0` agree with `getD 1`). -/
def sourceWeightOf (source : String) : ℚ :=
  (SOURCE_WEIGHTS.lookup source).getD 1

/-- `sourceWeightForSearch`: the dampened boost `1 + (raw − 1)·0.4`. -/
def sourceWeightForSearch (source : String) : ℚ :=
  1 + (sourceWeightOf source - 1) * (2/5)

/-! ## Lexical scoring and admission predicates -/

/-- `isCitationMatchRow` from the source. -/
def isCitationMatchRow (row : EntryRow) (citation : Option Citation) : Bool :=
  match citation with
  | none => false
  | some c =>
    row.book == c.book && strLower row.entry == c.entry &&
      (c.source.isNone || c.source == some row.source)

/-- `lexicalScoreForRow` from the source.  The citation condition is the same
conjunction as `isCitationMatchRow`. -/
def lexicalScoreForRow (row : EntryRow) (normalizedQuery : String)
    (coreTokens expandedTokens : List String) (citation : Option Citation) : ℚ :=
  let text := (normalizeText row.text).data
  let s1 : ℚ :=
    if normalizedQuery ≠ "" ∧ containsSub text normalizedQuery.data then 6/5 else 0
  let s2 : ℚ :=
    if coreTokens ≠ [] then
      let matched := (coreTokens.filter (fun t => containsSub text t.data)).length
      let frequency := (coreTokens.map (fun t => min (countOccurrences text t.data) 3)).sum
      ((matched : ℚ) / coreTokens.length) * (6/5) +
        min ((frequency : ℚ) / (coreTokens.length * 2)) 1 * (4/5)
    else 0
  let s3 : ℚ :=
    if expandedTokens ≠ [] then
      (((expandedTokens.filter (fun t => containsSub text t.data)).length : ℚ) /
        expandedTokens.length) * (1/4)
    else 0
  let s4 : ℚ := if isCitationMatchRow row citation then 5/2 else 0
  s1 + s2 + s3 + s4

/-- `isStrongLexicalRescue` from the source. -/
def isStrongLexicalRescue (row : EntryRow) (normalizedQuery : String)
    (coreTokens : List String) : Bool :=
  let text := (normalizeText row.text).data
  if 4 ≤ normalizedQuery.length && containsSub text normalizedQuery.data then true
  else if 2 ≤ coreTokens.length then
    let matchCount := (coreTokens.filter (fun t => containsSub text t.data)).length
    decide (min 3 coreTokens.length ≤ matchCount)
  else false

/-! ## Diversifier -/

/-- The capping pass of `diversifyBySource`: admit items whose per-source
running count is below the cap, collect the rest as overflow, both in rank
order. -/
def divPass {α : Type} (getSource : α → String) (softCap : ℕ) :
    List α → (String → ℕ) → List α × List α
  | [], _ => ([], [])
  | x :: xs, counts =>
    if counts (getSource x) < softCap then
      let p := divPass getSource softCap xs
        (fun k => if k = getSource x then counts k + 1 else counts k)
      (x :: p.1, p.2)
    else
      let p := divPass getSource softCap xs counts
      (p.1, x :: p.2)

/-- `diversifyBySource` from the source: cap per-source counts, backfill from
the overflow in rank order up to `limit`, final `slice(0, limit)`. -/
def diversifyBySource {α : Type} (getSource : α → String) (sorted : List α)
    (limit softCap : ℕ) : List α :=
  if sorted.length ≤ limit then sorted
  else
    let p := divPass getSource softCap sorted (fun _ => 0)
    let selected :=
      if p.1.length < limit then p.1 ++ p.2.take (limit - p.1.length) else p.1
    selected.take limit

/-! ## Database fetches (D1 adapter; rows in database order) -/

/-- A `(source, book, entry)` reference. -/
structure EntryRef where
  source : String
  book : ℕ
  entry : String
deriving DecidableEq, Repr

def refKey (r : EntryRef) : String := keyFor r.source r.book r.entry

/-- Worker of `chunks40`: consume elements into the current chunk (held
reversed in `acc`) while capacity remains, flushing full chunks. -/
def chunks40Go {α : Type} : List α → ℕ → List α → List (List α)
  | [], _, [] => []
  | [], _, a :: as => [(a :: as).reverse]
  | x :: xs, 0, acc => acc.reverse :: chunks40Go xs 39 [x]
  | x :: xs, cap + 1, acc => chunks40Go xs cap (x :: acc)

/-- The chunking loop `for (i = 0; i < refList.length; i += 40)
slice(i, i + 40)`. -/
def chunks40 {α : Type} (l : List α) : List (List α) := chunks40Go l 40 []

/-- `fetchRowsForRefs` from the source: deduplicate refs by key (`Map`
semantics), query in chunks of 40, key the result rows. -/
def fetchRowsForRefs (db : List EntryRow) (refs : List EntryRef) :
    List (String × EntryRow) :=
  let refList := (refs.foldl (fun m r => alSet m (refKey r) r) []).map (·.2)
  (chunks40 refList).foldl (fun rowsByKey chunk =>
    let results := db.filter (fun row => chunk.any (fun ref =>
      ref.source == row.source && ref.book == row.book && ref.entry == row.entry))
    results.foldl (fun m row => alSet m (rowKey row) row) rowsByKey) []

/-- `fetchCitationRows` from the source (`.first()` is the first row in
database order). -/
def fetchCitationRows (db : List EntryRow) (citation : Option Citation) :
    List EntryRow :=
  match citation with
  | none => []
  | some c =>
    match c.source with
    | some src =>
      if isSearchableSource src then
        match db.find? (fun r =>
            r.source == src && r.book == c.book && r.entry == c.entry) with
        | some r => [r]
        | none => []
      else []
    | none =>
      db.filter (fun r =>
        r.book == c.book && r.entry == c.entry && isSearchableSource r.source)

/-- `fetchLexicalRows` from the source: bounded `LIKE` scan over the
searchable sources (`lower(text) LIKE %term%`), capped at `limit`. -/
def fetchLexicalRows (db : List EntryRow) (terms : List String) (limit : ℕ) :
    List EntryRow :=
  if terms = [] then []
  else
    let filtered := (terms.filter (fun t => 3 ≤ (strTrim t).length)).take 12
    if filtered = [] then []
    else
      (db.filter (fun r =>
        isSearchableSource r.source &&
          filtered.any (fun t => containsSub (strLower r.text).data t.data))).take limit

/-! ## The hybrid search pipeline (`searchEntriesHybrid`)

The local `let` bindings of the source function are modelled as named stage
functions so theorems can refer to them; `searchEntriesHybrid` is their
composition in source order.  The external semantic fetch
(`fetchSemanticCandidates`, which performs the embedding call and vector
query) is an input of type `Except Unit (List SemanticCandidate)`. -/

def topKOf (o : SearchOptions) : ℕ := min (max (o.topK.getD 5) 1) 20

def semanticTopKOf (o : SearchOptions) : ℕ :=
  min (max (o.semanticTopK.getD (max (topKOf o * 6) 30)) (topKOf o)) 80

def lexicalLimitOf (o : SearchOptions) : ℕ :=
  max (o.lexicalLimit.getD 120) (topKOf o * 4)

def diversitySoftCapOf (o : SearchOptions) : ℕ :=
  max (o.diversitySoftCap.getD 2) 1

/-- `normalizeText(rawQuery).slice(0, 500)`. -/
def normalizedQueryOf (rawQuery : String) : String :=
  ⟨(normalizeText rawQuery).data.take 500⟩

def coreTokensOf (rawQuery : String) : List String :=
  tokenizeQuery (normalizedQueryOf rawQuery)

def expandedTokensOf (rawQuery : String) : List String :=
  expandTokens (coreTokensOf rawQuery)

/-- `[normalizedQuery, ...coreTokens, ...expandedTokens].filter(length ≥ 3)`. -/
def lexicalTermsOf (rawQuery : String) : List String :=
  (normalizedQueryOf rawQuery :: (coreTokensOf rawQuery ++ expandedTokensOf rawQuery)).filter
    (fun t => 3 ≤ t.length)

/-- The query string handed to the semantic fetch:
`normalizedQuery || rawQuery.trim()`. -/
def semQueryOf (rawQuery : String) : String :=
  if normalizedQueryOf rawQuery = "" then strTrim rawQuery else normalizedQueryOf rawQuery

/-- The `try/catch` around the semantic fetch: any failure degrades to the
empty candidate list. -/
def semCandsOf (semFetch : Except Unit (List SemanticCandidate)) :
    List SemanticCandidate :=
  match semFetch with
  | .ok cands => cands
  | .error _ => []

def candRef (c : SemanticCandidate) : EntryRef := ⟨c.source, c.book, c.entry⟩

/-- `semanticRowsByKey`: text rows for the semantic candidates. -/
def semanticRowsByKey (db : List EntryRow) (semCands : List SemanticCandidate) :
    List (String × EntryRow) :=
  fetchRowsForRefs db (semCands.map candRef)

/-- `semanticScoreByKey`: maximum score per key, restricted to candidates
whose row was found. -/
def semanticScoreByKey (db : List EntryRow) (semCands : List SemanticCandidate) :
    List (String × ℚ) :=
  semCands.foldl (fun m c =>
    let key := keyFor c.source c.book c.entry
    if (alGet (semanticRowsByKey db semCands) key).isNone then m
    else
      match alGet m key with
      | none => alSet m key c.score
      | some existing => if existing < c.score then alSet m key c.score else m) []

def hasSemanticCandidates (db : List EntryRow) (semCands : List SemanticCandidate) :
    Bool :=
  (semanticScoreByKey db semCands).length ≠ 0

/-- The shrunken lexical cap when semantic candidates exist. -/
def lexicalRescueLimitOf (db : List EntryRow) (o : SearchOptions)
    (semCands : List SemanticCandidate) : ℕ :=
  if hasSemanticCandidates db semCands then min (max (topKOf o * 2) 20) 40
  else lexicalLimitOf o

def lexicalRowsOf (db : List EntryRow) (rawQuery : String) (o : SearchOptions)
    (semCands : List SemanticCandidate) : List EntryRow :=
  fetchLexicalRows db (lexicalTermsOf rawQuery) (lexicalRescueLimitOf db o semCands)

def citationRowsOf (db : List EntryRow) (rawQuery : String) : List EntryRow :=
  fetchCitationRows db (parseCitation rawQuery)

/-- The first accumulation loop: every semantic key gets lexical score `0`
and its row. -/
def initialMapsOf (db : List EntryRow) (semCands : List SemanticCandidate) :
    List (String × ℚ) × List (String × EntryRow) :=
  (semanticScoreByKey db semCands).foldl (fun maps kv =>
    let rowByKey := match alGet (semanticRowsByKey db semCands) kv.1 with
      | some row => alSet maps.2 kv.1 row
      | none => maps.2
    (alSet maps.1 kv.1 0, rowByKey)) ([], [])

/-- The second loop: lexical rescoring of every semantic row. -/
def semLexMapsOf (db : List EntryRow) (rawQuery : String)
    (semCands : List SemanticCandidate) :
    List (String × ℚ) × List (String × EntryRow) :=
  ((semanticRowsByKey db semCands).map (·.2)).foldl (fun maps row =>
    let key := rowKey row
    let score := lexicalScoreForRow row (normalizedQueryOf rawQuery)
      (coreTokensOf rawQuery) (expandedTokensOf rawQuery) (parseCitation rawQuery)
    (alSet maps.1 key score, alSet maps.2 key row)) (initialMapsOf db semCands)

/-- The admission test of the third loop: a row is skipped iff semantic
candidates exist and it is neither a semantic row, a citation match, nor a
strong lexical rescue. -/
def admitsLexicalRow (db : List EntryRow) (rawQuery : String)
    (semCands : List SemanticCandidate) (row : EntryRow) : Bool :=
  !(hasSemanticCandidates db semCands &&
    !(alGet (semanticScoreByKey db semCands) (rowKey row)).isSome &&
    !isCitationMatchRow row (parseCitation rawQuery) &&
    !isStrongLexicalRescue row (normalizedQueryOf rawQuery) (coreTokensOf rawQuery))

/-- The third-loop fold step, named for the admission lemmas. -/
def finalStep (db : List EntryRow) (rawQuery : String)
    (semCands : List SemanticCandidate)
    (maps : List (String × ℚ) × List (String × EntryRow)) (row : EntryRow) :
    List (String × ℚ) × List (String × EntryRow) :=
  if admitsLexicalRow db rawQuery semCands row then
    let key := rowKey row
    let score := lexicalScoreForRow row (normalizedQueryOf rawQuery)
      (coreTokensOf rawQuery) (expandedTokensOf rawQuery) (parseCitation rawQuery)
    let current := (alGet maps.1 key).getD 0
    ((if current < score then alSet maps.1 key score else maps.1),
      alSet maps.2 key row)
  else maps

/-- The third loop over `[...lexicalRows, ...citationRows]`: admitted rows
contribute their lexical score (keeping the maximum per key) and their row. -/
def finalMapsOf (db : List EntryRow) (rawQuery : String) (o : SearchOptions)
    (semCands : List SemanticCandidate) :
    List (String × ℚ) × List (String × EntryRow) :=
  (lexicalRowsOf db rawQuery o semCands ++ citationRowsOf db rawQuery).foldl
    (fun maps row =>
      if admitsLexicalRow db rawQuery semCands row then
        let key := rowKey row
        let score := lexicalScoreForRow row (normalizedQueryOf rawQuery)
          (coreTokensOf rawQuery) (expandedTokensOf rawQuery) (parseCitation rawQuery)
        let current := (alGet maps.1 key).getD 0
        ((if current < score then alSet maps.1 key score else maps.1),
          alSet maps.2 key row)
      else maps) (semLexMapsOf db rawQuery semCands)

/-- `Math.min(...scores)` with the `scores.length ? … : 0` guard. -/
def listMin (l : List ℚ) : ℚ :=
  match l with
  | [] => 0
  | x :: xs => xs.foldl min x

/-- `Math.max(...scores)` with the `scores.length ? … : 0` guard. -/
def listMax (l : List ℚ) : ℚ :=
  match l with
  | [] => 0
  | x :: xs => xs.foldl max x

/-- One scored candidate `{...row, score, weightedScore}` of the `combined`
list (the row is kept as a field rather than spread). -/
structure Combined where
  row : EntryRow
  score : ℚ
  weightedScore : ℚ
deriving DecidableEq, Repr

/-- The `combined` list: every pooled row with its raw semantic score and the
blended `weightedScore`. -/
def hybridCombined (db : List EntryRow) (rawQuery : String) (o : SearchOptions)
    (semCands : List SemanticCandidate) : List Combined :=
  let maps := finalMapsOf db rawQuery o semCands
  let semanticScores := (semanticScoreByKey db semCands).map (·.2)
  let lexicalScores := maps.1.map (·.2)
  let semanticMin := listMin semanticScores
  let semanticMax := listMax semanticScores
  let lexicalMax := listMax lexicalScores
  let semanticBlend : ℚ := if hasSemanticCandidates db semCands then 9/10 else 0
  let lexicalBlend : ℚ := if hasSemanticCandidates db semCands then 1/10 else 1
  maps.2.map (fun kv =>
    let semanticRaw := (alGet (semanticScoreByKey db semCands) kv.1).getD 0
    let lexicalRaw := (alGet maps.1 kv.1).getD 0
    let semanticNorm := normalizeSemanticScore semanticRaw semanticMin semanticMax
    let lexicalNorm := if 0 < lexicalMax then lexicalRaw / lexicalMax else 0
    let sourceBoost := sourceWeightForSearch kv.2.source
    { row := kv.2, score := semanticRaw,
      weightedScore := (semanticNorm * semanticBlend + lexicalNorm * lexicalBlend) * sourceBoost })

/-- The sort comparator: descending `weightedScore`, ties broken by
descending raw semantic `score`; `rankLE a b` means `a` may precede `b`. -/
def rankLE (a b : Combined) : Bool :=
  if a.weightedScore = b.weightedScore then decide (b.score ≤ a.score)
  else decide (b.weightedScore < a.weightedScore)

/-- `combined.sort(...)`: a stable sort by the comparator. -/
def hybridSorted (db : List EntryRow) (rawQuery : String) (o : SearchOptions)
    (semCands : List SemanticCandidate) : List Combined :=
  (hybridCombined db rawQuery o semCands).mergeSort rankLE

/-- `searchEntriesHybrid` from the source. -/
def searchEntriesHybrid (db : List EntryRow) (rawQuery : String)
    (options : SearchOptions) (semFetch : Except Unit (List SemanticCandidate)) :
    List SearchResult :=
  let semCands := semCandsOf semFetch
  let diversified := diversifyBySource (fun c => c.row.source)
    (hybridSorted db rawQuery options semCands) (topKOf options)
    (diversitySoftCapOf options)
  diversified.map (fun item =>
    { source := item.row.source, book := item.row.book, entry := item.row.entry,
      text := item.row.text, score := roundScore item.score,
      weightedScore := roundScore item.weightedScore })

/-! ## Query fusion (`searchEntries` of `notes.ts`) -/

/-- `[...new Set(queries.map(trim).filter(Boolean))].slice(0, 6)`. -/
def uniqueQueriesOf (queries : List String) : List String :=
  (dedupFirst ((queries.map (fun q => strTrim q)).filter (fun q => q ≠ ""))).take 6

/-- The fixed reciprocal-rank-fusion constant. -/
def rrfK : ℕ := 30

/-- One fusion step: an item at 0-based rank `i` (the first component of the
`enum` pair) contributes `1 / (rrfK + i + 1)` to its key; the first
occurrence also records the entry data. -/
def fuseStep (m : List (String × (ℚ × EntryRow))) (p : ℕ × SearchResult) :
    List (String × (ℚ × EntryRow)) :=
  let key := keyFor p.2.source p.2.book p.2.entry
  let contribution : ℚ := 1 / (rrfK + p.1 + 1)
  match alGet m key with
  | some existing => alSet m key (existing.1 + contribution, existing.2)
  | none =>
    alSet m key (contribution, ⟨p.2.source, p.2.book, p.2.entry, p.2.text⟩)

/-- The fused map: per `(source, book, entry)` key, the summed contribution
`1/(rrfK + rank + 1)` over every per-query result list, with the entry data
of the first occurrence. -/
def fusedOf (lists : List (List SearchResult)) : List (String × (ℚ × EntryRow)) :=
  lists.foldl (fun m list => list.enum.foldl fuseStep m) []

/-- The summed contributions of key `k` in one enumerated result list. -/
def rrfContribsP (k : String) (ps : List (ℕ × SearchResult)) : ℚ :=
  ((ps.filter (fun p => keyFor p.2.source p.2.book p.2.entry == k)).map
    (fun p => (1 : ℚ) / (rrfK + p.1 + 1))).sum

/-- The summed contributions of key `k` in one result list: the item at
0-based rank `i` contributes `1 / (30 + i + 1)` when its key is `k`. -/
def rrfContribs (k : String) (l : List SearchResult) : ℚ :=
  rrfContribsP k l.enum

/-- The fusion sort comparator (`b.score - a.score`, descending). -/
def fusedLE (a b : String × (ℚ × EntryRow)) : Bool :=
  decide (b.2.1 ≤ a.2.1)

/-- The per-query options of `searchEntries`. -/
def fusionOptions (maxResults : ℕ) : SearchOptions :=
  { topK := some (max maxResults 6), semanticTopK := some 30,
    lexicalLimit := some 100, diversitySoftCap := some 2 }

/-- `searchEntries` from `notes.ts`: run the pipeline once per deduplicated
query (capped at 6), fuse by summed reciprocal rank, sort descending and
truncate.  `semOf` is the external semantic fetch, keyed by the query string
the pipeline hands it. -/
def searchEntries (db : List EntryRow)
    (semOf : String → Except Unit (List SemanticCandidate))
    (queries : List String) (maxResults : ℕ) : List EntryRow :=
  let uniqueQueries := uniqueQueriesOf queries
  if uniqueQueries = [] then []
  else
    let perQueryResults := uniqueQueries.map (fun q =>
      searchEntriesHybrid db q (fusionOptions maxResults) (semOf (semQueryOf q)))
    ((((fusedOf perQueryResults).mergeSort fusedLE).take maxResults).map (fun p => p.2.2))

/-! ## Selection engine (`weighted-random.ts`)

32-bit values are natural numbers reduced `% 2^32`; signed/unsigned
reinterpretation never matters because every operation of Mulberry32 is
congruent modulo `2^32` and the final `>>> 0` reads the unsigned value. -/

def m32 (n : ℕ) : ℕ := n % 4294967296

/-- `Math.imul` observed through the following bitwise/modular operations:
the product modulo `2^32`. -/
def imul32 (a b : ℕ) : ℕ := m32 (a * b)

/-- The output mix of Mulberry32 applied to the advanced state `t0`:
`t = imul(t ^ (t >>> 15), t | 1); t ^= t + imul(t ^ (t >>> 7), t | 61);
return (t ^ (t >>> 14)) >>> 0`. -/
def mulberryMix (t0 : ℕ) : ℕ :=
  let t1 := imul32 (Nat.xor t0 (t0 >>> 15)) (t0 ||| 1)
  let t2 := Nat.xor t1 (m32 (t1 + imul32 (Nat.xor t1 (t1 >>> 7)) (t1 ||| 61)))
  Nat.xor t2 (t2 >>> 14)

/-- The internal state after `i + 1` advances of `s += 0x6d2b79f5` starting
from `seed | 0`. -/
def mulberryState (seed : ℕ) : ℕ → ℕ
  | 0 => m32 (m32 seed + 0x6D2B79F5)
  | i + 1 => m32 (mulberryState seed i + 0x6D2B79F5)

/-- `mulberry32(seed)` from the source, as the sequence of its outputs:
the `i`-th call returns `mix(state_i) / 2^32 ∈ [0, 1)`. -/
def mulberry32 (seed : ℕ) (i : ℕ) : ℚ :=
  (mulberryMix (mulberryState seed i) : ℚ) / 4294967296

/-- `EntryStub` from the source.  `last_seen` is the parsed epoch-millisecond
value of the ISO datetime string (`null`/absent as `none`). -/
structure EntryStub where
  id : ℤ
  source : String
  marked : ℤ
  view_count : Option ℕ := none
  last_seen : Option ℚ := none
  avg_rating : Option ℚ := none
deriving DecidableEq, Repr

/-- `WeightedEntry`: an `EntryStub` with its computed weight. -/
structure WeightedEntry extends EntryStub where
  weight : ℝ

/-- The configuration constants of `REFLECTION_WEIGHTS` (the source-priority
table is the shared `SOURCE_WEIGHTS` above). -/
def MARKED_BOOST : ℚ := 13/10

def NEVER_SEEN_WEIGHT : ℚ := 10

def RECHARGE_DAYS : ℚ := 30

/-- `RATING_MULTIPLIERS` with the `|| 1.0` fallback for other keys. -/
def ratingMultiplierFor (rounded : ℤ) : ℚ :=
  if rounded = 1 then 7/10 else if rounded = 2 then 1 else if rounded = 3 then 13/10 else 1

/-- `calculateEntryWeight` from the source.  `Date.now()` is the explicit
input `now` (epoch milliseconds); `Math.log2` is `Real.logb 2`;
`Math.round` is `round` (half toward `+∞`). -/
noncomputable def calculateEntryWeight (now : ℚ) (entry : EntryStub) : ℝ :=
  let baseWeight : ℝ :=
    if entry.view_count.getD 0 = 0 then (NEVER_SEEN_WEIGHT : ℚ)
    else
      let daysSince : ℚ :=
        match entry.last_seen with
        | some ls => (now - ls) / 86400000
        | none => RECHARGE_DAYS
      let recharged : ℝ := min ((daysSince / RECHARGE_DAYS : ℚ) : ℝ) 5
      recharged / Real.logb 2 ((entry.view_count.getD 0 : ℝ) + 1)
  let markedBoost : ℚ := if entry.marked = 1 then MARKED_BOOST else 1
  let sourceWeight : ℚ := sourceWeightOf entry.source
  let ratingMultiplier : ℚ :=
    match entry.avg_rating with
    | none => 1
    | some avg => ratingMultiplierFor (round avg)
  baseWeight * (markedBoost : ℝ) * (sourceWeight : ℝ) * (ratingMultiplier : ℝ)

/-- The reservoir loop of `weightedRandomSelection`: running total, replace
the held selection when `rng() * total < weight`. -/
noncomputable def wrsLoop (rng : ℕ → ℚ) :
    List WeightedEntry → ℕ → ℝ → WeightedEntry → WeightedEntry
  | [], _, _, selected => selected
  | e :: rest, i, totalWeight, selected =>
    let total := totalWeight + e.weight
    wrsLoop rng rest (i + 1) total (if (rng i : ℝ) * total < e.weight then e else selected)

/-- `weightedRandomSelection` from the source.  The JavaScript function
indexes `entries[0]` unconditionally; the empty case (where it would return
`undefined`) is `none`. -/
noncomputable def weightedRandomSelection (entries : List WeightedEntry)
    (rng : ℕ → ℚ) : Option WeightedEntry :=
  match entries with
  | [] => none
  | e0 :: _ => some (wrsLoop rng entries 0 0 e0)

/-- `selectDailyEntry` from the source: date-seeded Mulberry32 over the
weighted entries.  `now` is the `Date.now()` of the invocation. -/
noncomputable def selectDailyEntry (entries : List EntryStub) (dateSeed : ℕ)
    (now : ℚ) : Option ℤ :=
  let weighted := entries.map (fun e =>
    ({ e with weight := calculateEntryWeight now e } : WeightedEntry))
  (weightedRandomSelection weighted (mulberry32 dateSeed)).map (·.id)

/-- `selectRandomEntry` from the source; `Math.random` is the explicit input
`rng`. -/
noncomputable def selectRandomEntry (entries : List EntryStub) (rng : ℕ → ℚ)
    (now : ℚ) : Option ℤ :=
  let weighted := entries.map (fun e =>
    ({ e with weight := calculateEntryWeight now e } : WeightedEntry))
  (weightedRandomSelection weighted rng).map (·.id)

/-! ## Statement-side definitions

Definitions used only to state claims: the claim's own formulas (for
refinement comparisons) and concrete evaluation inputs. -/

/-- The claim's entry-token pattern, word for word: digits optionally
followed by one lowercase letter. -/
def specEntryTokenMatch (s : List Char) : Bool :=
  let d := s.takeWhile Char.isDigit
  let r := s.dropWhile Char.isDigit
  match r with
  | [] => d ≠ []
  | [c] => d ≠ [] && ('a' ≤ c && c ≤ 'z')
  | _ => false

/-- The lexical relevance formula exactly as the claim states it:
`1.2·[normalized query is a substring of the text]
 + 1.2·(matched core tokens / core token count)
 + 0.8·min(capped core-token occurrences / (core token count·2), 1)
 + 0.25·(matched expanded tokens / expanded token count)
 + 2.5·[the row matches the parsed citation]`,
with zero-denominator terms contributing zero. -/
def lexicalScoreSpec (row : EntryRow) (normalizedQuery : String)
    (coreTokens expandedTokens : List String) (citation : Option Citation) : ℚ :=
  let text := (normalizeText row.text).data
  (if containsSub text normalizedQuery.data then 6/5 else 0) +
  (if coreTokens.length = 0 then 0 else
    (((coreTokens.filter (fun t => containsSub text t.data)).length : ℚ) /
      coreTokens.length) * (6/5)) +
  (if coreTokens.length = 0 then 0 else
    min (((coreTokens.map (fun t => min (countOccurrences text t.data) 3)).sum : ℚ) /
      (coreTokens.length * 2)) 1 * (4/5)) +
  (if expandedTokens.length = 0 then 0 else
    (((expandedTokens.filter (fun t => containsSub text t.data)).length : ℚ) /
      expandedTokens.length) * (1/4)) +
  (if isCitationMatchRow row citation then 5/2 else 0)

/-- A concrete database row used for pipeline evaluations. -/
def rowCitation : EntryRow := ⟨"meditations", 1, "2", "xyz"⟩

/-- A one-row database used for pipeline evaluations. -/
def dbCitation : List EntryRow := [rowCitation]

/-- A row matched by the semantic candidate in the admission evaluation. -/
def rowSem : EntryRow := ⟨"meditations", 1, "1", "abc"⟩

/-- A lexical-only row whose text contains the query verbatim. -/
def rowLex : EntryRow := ⟨"meditations", 1, "3", "the mind of anger"⟩

/-- A two-row database for the admission evaluation. -/
def dbRescue : List EntryRow := [rowSem, rowLex]

/-- One semantic candidate hitting `rowSem`. -/
def semCandsRescue : List SemanticCandidate := [⟨"meditations", 1, "1", 1⟩]

/-- The never-seen entry used by the C1 evaluation. -/
def stubNeverSeen : EntryStub := ⟨1, "meditations", 0, none, none, none⟩

/-- An entry viewed once, last seen at epoch midnight (`last_seen = 0`). -/
def stubSeenMidnight : EntryStub := ⟨2, "meditations", 0, some 1, some 0, none⟩

/-! ## Helper lemmas -/

/-- Dropping whitespace from a list ending in `'x'` leaves a list ending in
`'x'`. -/
lemma dropWhile_ws_append_x (m : List Char) :
    ∃ t, List.dropWhile Char.isWhitespace (m ++ ['x']) = t ++ ['x'] := by
  induction m with
  | nil => exact ⟨[], by simp⟩
  | cons c m ih =>
    by_cases h : Char.isWhitespace c
    · simpa [List.dropWhile_cons, h] using ih
    · exact ⟨c :: m, by simp [List.dropWhile_cons, h]⟩

/-- Trimming a string that starts with `'x'` keeps the leading `'x'`. -/
lemma trimL_x_cons (cs : List Char) : ∃ t, trimL ('x' :: cs) = 'x' :: t := by
  obtain ⟨t, ht⟩ := dropWhile_ws_append_x cs.reverse
  refine ⟨t.reverse, ?_⟩
  have hx : ¬ Char.isWhitespace 'x' := by decide
  simp [trimL, List.dropWhile_cons, hx, ht]

/-- A case-insensitive tag match fails when the first characters differ. -/
lemma stripPrefixCI_head_ne {c d : Char} (ds cs : List Char)
    (h : c.toLower ≠ d) : stripPrefixCI (d :: ds) (c :: cs) = none := by
  simp only [stripPrefixCI, List.length_cons, List.take_succ_cons, List.map_cons]
  rw [if_neg]
  simp [h]

/-- No known source identifier starts with `'x'`. -/
lemma stripSourceTag_x_cons (t : List Char) : stripSourceTag ('x' :: t) = none := by
  have h1 : stripPrefixCI "meditations".data ('x' :: t) = none := by
    rw [show "meditations".data = 'm' :: "editations".data from rfl]
    exact stripPrefixCI_head_ne _ _ (by decide)
  have h2 : stripPrefixCI "discourses".data ('x' :: t) = none := by
    rw [show "discourses".data = 'd' :: "iscourses".data from rfl]
    exact stripPrefixCI_head_ne _ _ (by decide)
  have h3 : stripPrefixCI "enchiridion".data ('x' :: t) = none := by
    rw [show "enchiridion".data = 'e' :: "nchiridion".data from rfl]
    exact stripPrefixCI_head_ne _ _ (by decide)
  have h4 : stripPrefixCI "fragments".data ('x' :: t) = none := by
    rw [show "fragments".data = 'f' :: "ragments".data from rfl]
    exact stripPrefixCI_head_ne _ _ (by decide)
  have h5 : stripPrefixCI "seneca-tranquillity".data ('x' :: t) = none := by
    rw [show "seneca-tranquillity".data = 's' :: "eneca-tranquillity".data from rfl]
    exact stripPrefixCI_head_ne _ _ (by decide)
  have h6 : stripPrefixCI "seneca-shortness".data ('x' :: t) = none := by
    rw [show "seneca-shortness".data = 's' :: "eneca-shortness".data from rfl]
    exact stripPrefixCI_head_ne _ _ (by decide)
  simp [stripSourceTag, SEARCHABLE_SOURCES, List.firstM, h1, h2, h3, h4, h5, h6]
  rfl

/-- A query starting with a digit-free, source-free character never parses. -/
lemma parseBookEntry_x_cons (t : List Char) : parseBookEntry ('x' :: t) = none := by
  have : ¬ Char.isDigit 'x' := by decide
  simp [parseBookEntry, List.takeWhile_cons, List.dropWhile_cons, this]

/-- C8, counterexample.  The regex carries the `i` flag, so its `[a-z]` class
also accepts an uppercase trailing letter: `"6.26A"` yields a citation (with
the letter lowercased), although its entry token `"26A"` does not match the
claimed digits-plus-lowercase-letter pattern, refuting the claimed
"exactly when". -/
theorem parseCitation_uppercase_letter_counterexample :
    parseCitation "6.26A" = some ⟨none, 6, "26a"⟩ ∧
      specEntryTokenMatch "26A".data = false := by
  constructor
  · rfl
  · rfl

/-- C8, amended: `parseCitation` is a strict total match of an optional known
source identifier (case-insensitive) plus whitespace, an integer book, a dot,
and digits optionally followed by one letter of either case (lowercased in
the result); surrounding words make it fail, as does any query whose trimmed
form starts with a character that begins neither a source identifier nor a
number (witnessed by a leading `'x'`). -/
theorem parseCitation_cases :
    parseCitation "meditations 6.26" = some ⟨some "meditations", 6, "26"⟩ ∧
    parseCitation "6.26" = some ⟨none, 6, "26"⟩ ∧
    parseCitation "just thinking about death" = none ∧
    parseCitation "meditations 6.26 today" = none ∧
    parseCitation "MEDITATIONS 6.26" = some ⟨some "meditations", 6, "26"⟩ ∧
    parseCitation "6.26A" = some ⟨none, 6, "26a"⟩ ∧
    (∀ cs : List Char, parseCitation ⟨'x' :: cs⟩ = none) := by
  refine ⟨rfl, rfl, rfl, rfl, rfl, rfl, fun cs => ?_⟩
  obtain ⟨t, ht⟩ := trimL_x_cons cs
  have hdata : (⟨'x' :: cs⟩ : String).data = 'x' :: cs := rfl
  simp only [parseCitation, hdata, ht, stripSourceTag_x_cons, parseBookEntry_x_cons,
    Option.map_none']

/-- C2, counterexample.  The claimed guard "if `max == min` the result is 1"
belongs to `normalizeScore`, but the semantic path `normalizeSemanticScore`
returns the clamped raw value when the spread is zero: at
`value = min = max = 1/2` the result is `1/2`, not `1`. -/
theorem normalizeSemanticScore_max_eq_min_counterexample :
    normalizeSemanticScore (1/2) (1/2) (1/2) = 1/2 ∧ (1/2 : ℚ) ≠ 1 := by
  norm_num [normalizeSemanticScore]

/-- C2, amended: `normalizeSemanticScore` always lands in `[0, 1]`; a
non-positive spread (including `max = min`) yields the raw value clamped to
`[0, 1]`; a positive spread below `0.05` inside `[0, 1]` yields the clamped
raw value; a positive spread below `0.05` inside `[-1, 1]` (with `min < 0`)
rescales from `[-1, 1]`; otherwise — spread at least `0.05`, or a small
spread with the raw range outside both `[0, 1]` and `[-1, 1]` — the result
is clamped linear min-max scaling `clamp(normalizeScore value min max)`,
which is `0` whenever `max ≤ 0`; and the raw set `{0.91, 0.90, 0.915}`
normalizes to itself, pinning no score to `0` or `1`. -/
theorem normalizeSemanticScore_spec :
    (∀ value mn mx : ℚ, 0 ≤ normalizeSemanticScore value mn mx ∧
      normalizeSemanticScore value mn mx ≤ 1) ∧
    (∀ value mn mx : ℚ, mx - mn ≤ 0 →
      normalizeSemanticScore value mn mx = max 0 (min value 1)) ∧
    (∀ value mn mx : ℚ, 0 < mx - mn → mx - mn < 1/20 → 0 ≤ mn → mx ≤ 1 →
      normalizeSemanticScore value mn mx = max 0 (min value 1)) ∧
    (∀ value mn mx : ℚ, 0 < mx - mn → mx - mn < 1/20 → mn < 0 → -1 ≤ mn → mx ≤ 1 →
      normalizeSemanticScore value mn mx = max 0 (min ((value + 1) / 2) 1)) ∧
    (∀ value mn mx : ℚ, 0 < mx - mn →
      ¬ (mx - mn < 1/20 ∧ 0 ≤ mn ∧ mx ≤ 1) →
      ¬ (mx - mn < 1/20 ∧ -1 ≤ mn ∧ mx ≤ 1) →
      normalizeSemanticScore value mn mx =
        max 0 (min (normalizeScore value mn mx) 1)) ∧
    (∀ value mn mx : ℚ, 0 < mx - mn → mx ≤ 0 →
      ¬ (mx - mn < 1/20 ∧ -1 ≤ mn ∧ mx ≤ 1) →
      normalizeSemanticScore value mn mx = 0) ∧
    (normalizeSemanticScore (91/100) (9/10) (183/200) = 91/100 ∧
     normalizeSemanticScore (9/10) (9/10) (183/200) = 9/10 ∧
     normalizeSemanticScore (183/200) (9/10) (183/200) = 183/200 ∧
     (∀ v : ℚ, v ∈ [(91:ℚ)/100, 9/10, 183/200] →
       normalizeSemanticScore v (9/10) (183/200) ≠ 0 ∧
       normalizeSemanticScore v (9/10) (183/200) ≠ 1)) := by
  refine ⟨?_, ?_, ?_, ?_, ?_, ?_, ?_⟩
  · intro value mn mx
    unfold normalizeSemanticScore
    dsimp only
    constructor <;> split_ifs <;>
      simp [le_max_iff, max_le_iff, min_le_iff, le_min_iff, le_refl, le_total]
  · intro value mn mx h
    unfold normalizeSemanticScore
    rw [if_pos h]
  · intro value mn mx h0 h1 h2 h3
    unfold normalizeSemanticScore
    rw [if_neg (by linarith), if_pos ⟨h1, h2, h3⟩]
  · intro value mn mx h0 h1 h2 h3 h4
    unfold normalizeSemanticScore
    rw [if_neg (by linarith), if_neg (by intro h; exact absurd h.2.1 (by linarith)),
      if_pos ⟨h1, h3, h4⟩]
  · intro value mn mx h0 hg1 hg2
    unfold normalizeSemanticScore
    rw [if_neg (by linarith), if_neg hg1, if_neg hg2]
  · intro value mn mx h0 h1 hg2
    unfold normalizeSemanticScore
    rw [if_neg (by linarith), if_neg (by rintro ⟨-, h2, -⟩; linarith),
      if_neg hg2]
    unfold normalizeScore
    rw [if_pos h1]
    norm_num
  · refine ⟨by norm_num [normalizeSemanticScore], by norm_num [normalizeSemanticScore],
      by norm_num [normalizeSemanticScore], ?_⟩
    intro v hv
    simp only [List.mem_cons, List.not_mem_nil, or_false] at hv
    rcases hv with rfl | rfl | rfl <;> norm_num [normalizeSemanticScore]

/-- Witness for the amended C2 statement at concrete inputs: one per branch,
including the min-max branch at a full spread and the small-spread range
`[-1.02, -0.99]` that lies outside both cosine ranges and normalizes to `0`. -/
theorem normalizeSemanticScore_spec_witness :
    normalizeSemanticScore (1/2) (3/5) (2/5) = max 0 (min (1/2) 1) ∧
    normalizeSemanticScore (91/100) (9/10) (183/200) = max 0 (min (91/100) 1) ∧
    normalizeSemanticScore (-1/2) (-13/25) (-1/2) = max 0 (min ((-1/2 + 1) / 2) 1) ∧
    normalizeSemanticScore (1/2) 0 1 = max 0 (min (normalizeScore (1/2) 0 1) 1) ∧
    normalizeSemanticScore (-1) (-51/50) (-99/100) = 0 ∧
    normalizeSemanticScore (-1/2) (-3/5) (-1/2) = 0 :=
  ⟨normalizeSemanticScore_spec.2.1 (1/2) (3/5) (2/5) (by norm_num),
   normalizeSemanticScore_spec.2.2.1 (91/100) (9/10) (183/200)
     (by norm_num) (by norm_num) (by norm_num) (by norm_num),
   normalizeSemanticScore_spec.2.2.2.1 (-1/2) (-13/25) (-1/2)
     (by norm_num) (by norm_num) (by norm_num) (by norm_num) (by norm_num),
   normalizeSemanticScore_spec.2.2.2.2.1 (1/2) 0 1
     (by norm_num) (by norm_num) (by norm_num),
   normalizeSemanticScore_spec.2.2.2.2.2.1 (-1) (-51/50) (-99/100)
     (by norm_num) (by norm_num) (by norm_num),
   normalizeSemanticScore_spec.2.2.2.2.2.1 (-1/2) (-3/5) (-1/2)
     (by norm_num) (by norm_num) (by norm_num)⟩

/-- C6, counterexample.  The source guards the substring term with
`normalizedQuery &&` (the empty string is falsy), while the empty string is a
substring of every text: at the empty normalized query the code scores `0`
but the claimed formula scores `1.2`. -/
theorem lexicalScoreForRow_empty_query_counterexample :
    lexicalScoreForRow ⟨"meditations", 1, "1", "abc"⟩ "" [] [] none = 0 ∧
    lexicalScoreSpec ⟨"meditations", 1, "1", "abc"⟩ "" [] [] none = 6/5 ∧
    (0 : ℚ) ≠ 6/5 := by
  have hsub : containsSub (normalizeText "abc").data "".data = true := by decide
  refine ⟨?_, ?_, by norm_num⟩
  · norm_num [lexicalScoreForRow, isCitationMatchRow]
  · norm_num [lexicalScoreSpec, isCitationMatchRow, hsub]

/-- C6, amended: for every row and every nonempty normalized query the code's
lexical score equals the claimed five-term formula (with zero-denominator
terms contributing zero, which in `ℚ` also means no `NaN` can arise); the
substring term requires the normalized query to be nonempty. -/
theorem lexicalScoreForRow_eq_spec (row : EntryRow) (normalizedQuery : String)
    (coreTokens expandedTokens : List String) (citation : Option Citation)
    (hnq : normalizedQuery ≠ "") :
    lexicalScoreForRow row normalizedQuery coreTokens expandedTokens citation =
      lexicalScoreSpec row normalizedQuery coreTokens expandedTokens citation := by
  unfold lexicalScoreForRow lexicalScoreSpec
  dsimp only
  by_cases h1 : containsSub (normalizeText row.text).data normalizedQuery.data
  all_goals by_cases h2 : coreTokens = []
  all_goals by_cases h3 : expandedTokens = []
  all_goals by_cases h4 : isCitationMatchRow row citation
  all_goals simp [h1, h2, h3, h4, hnq, List.length_eq_zero]
  all_goals ring

/-- Witness for the amended C6 statement at a concrete nonempty query. -/
theorem lexicalScoreForRow_eq_spec_witness :
    lexicalScoreForRow ⟨"meditations", 1, "1", "abc"⟩ "abc" ["abc"] [] none =
      lexicalScoreSpec ⟨"meditations", 1, "1", "abc"⟩ "abc" ["abc"] [] none :=
  lexicalScoreForRow_eq_spec _ "abc" ["abc"] [] none (by decide)

/-- The capping pass splits its input: admitted plus overflow lengths sum to
the input length. -/
lemma divPass_length {α : Type} (getSource : α → String) (softCap : ℕ) :
    ∀ (l : List α) (counts : String → ℕ),
      (divPass getSource softCap l counts).1.length +
        (divPass getSource softCap l counts).2.length = l.length := by
  intro l
  induction l with
  | nil => intro counts; simp [divPass]
  | cons x xs ih =>
    intro counts
    by_cases h : counts (getSource x) < softCap
    · simp only [divPass, if_pos h, List.length_cons]
      have := ih (fun k => if k = getSource x then counts k + 1 else counts k)
      omega
    · simp only [divPass, if_neg h, List.length_cons]
      have := ih counts
      omega

/-- C4: for every candidate list and bounds `topK ≥ 1`, `softCap ≥ 1`, the
Diversifier returns exactly `min topK (input length)` items: the cap pass
plus rank-ordered backfill can never shorten the output below the requested
size (nor exceed it). -/
theorem diversifyBySource_length {α : Type} (getSource : α → String)
    (sorted : List α) (topK softCap : ℕ) (htop : 1 ≤ topK) (hcap : 1 ≤ softCap) :
    (diversifyBySource getSource sorted topK softCap).length =
      min topK sorted.length := by
  unfold diversifyBySource
  by_cases hle : sorted.length ≤ topK
  · rw [if_pos hle, Nat.min_eq_right hle]
  · rw [if_neg hle]
    have hlt : topK < sorted.length := Nat.lt_of_not_le hle
    have hsum := divPass_length getSource softCap sorted (fun _ => 0)
    set p := divPass getSource softCap sorted (fun _ => 0) with hp
    dsimp only
    by_cases hsel : p.1.length < topK
    · rw [if_pos hsel]
      have htake : (p.2.take (topK - p.1.length)).length = topK - p.1.length := by
        rw [List.length_take]
        omega
      rw [List.length_take, List.length_append, htake]
      omega
    · rw [if_neg hsel, List.length_take]
      omega

/-- Witness for C4 at a concrete input: three same-source items, `topK = 2`,
`softCap = 1` still yield `min 2 3 = 2` items. -/
theorem diversifyBySource_length_witness :
    (diversifyBySource (fun s : String => s) ["a", "a", "a"] 2 1).length =
      min 2 3 := by
  have h := diversifyBySource_length (fun s : String => s) ["a", "a", "a"] 2 1
    (by norm_num) (by norm_num)
  simpa using h

/-! ### Association-list (`Map`) lemmas -/

lemma keys_alSet {β : Type} (m : List (String × β)) (k : String) (v : β) :
    (alSet m k v).map (·.1) =
      if m.any (fun p => p.1 == k) then m.map (·.1) else m.map (·.1) ++ [k] := by
  unfold alSet
  split_ifs with h
  · rw [List.map_map]
    apply List.map_congr_left
    intro p hp
    by_cases hpk : p.1 = k
    · simp [hpk]
    · simp [hpk]
  · simp

lemma mem_keys_alSet_self {β : Type} (m : List (String × β)) (k : String) (v : β) :
    k ∈ (alSet m k v).map (·.1) := by
  rw [keys_alSet]
  split_ifs with h
  · rcases List.any_eq_true.mp h with ⟨q, hq, hqk⟩
    have hk : q.1 = k := by simpa using hqk
    exact hk ▸ List.mem_map_of_mem (·.1) hq
  · simp

lemma mem_keys_alSet_of_mem {β : Type} (m : List (String × β)) (k : String)
    (v : β) {k' : String} (h : k' ∈ m.map (·.1)) :
    k' ∈ (alSet m k v).map (·.1) := by
  rw [keys_alSet]
  split_ifs <;> simp [h]

lemma mem_keys_of_mem_keys_alSet {β : Type} (m : List (String × β)) (k : String)
    (v : β) {k' : String} (h : k' ∈ (alSet m k v).map (·.1)) :
    k' = k ∨ k' ∈ m.map (·.1) := by
  rw [keys_alSet] at h
  split_ifs at h with hs
  · exact Or.inr h
  · rcases List.mem_append.mp h with h' | h'
    · exact Or.inr h'
    · exact Or.inl (by simpa using h')

lemma alGet_isSome_iff {β : Type} (m : List (String × β)) (k : String) :
    (alGet m k).isSome ↔ k ∈ m.map (·.1) := by
  unfold alGet
  induction m with
  | nil => simp
  | cons p m ih =>
    by_cases hp : (p.1 == k) = true
    · have hk : p.1 = k := by simpa using hp
      simp [List.find?_cons, hp, hk.symm]
    · have hp' : (p.1 == k) = false := by simpa using hp
      have hne : p.1 ≠ k := by simpa using hp
      simp only [List.find?_cons, hp', List.map_cons, List.mem_cons]
      rw [ih]
      exact ⟨Or.inr, fun h => h.resolve_left (fun h' => hne h'.symm)⟩

lemma alGet_eq_none_iff {β : Type} (m : List (String × β)) (k : String) :
    alGet m k = none ↔ k ∉ m.map (·.1) := by
  rw [← alGet_isSome_iff, Option.isSome_iff_exists]
  cases alGet m k <;> simp

lemma alGet_alSet_self {β : Type} (m : List (String × β)) (k : String) (v : β) :
    alGet (alSet m k v) k = some v := by
  unfold alGet alSet
  split_ifs with h
  · induction m with
    | nil => simp at h
    | cons p m ih =>
      by_cases hp : p.1 = k
      · simp [List.find?_cons, hp]
      · have hm : m.any (fun q => q.1 == k) := by
          rcases List.any_eq_true.mp h with ⟨q, hq, hqk⟩
          rcases List.mem_cons.mp hq with rfl | hq'
          · exact absurd (by simpa using hqk) hp
          · exact List.any_eq_true.mpr ⟨q, hq', hqk⟩
        simpa [List.find?_cons, hp] using ih hm
  · induction m with
    | nil => simp [List.find?_cons]
    | cons p m ih =>
      have hp : ¬ p.1 = k := by
        intro hc
        exact h (List.any_eq_true.mpr ⟨p, List.mem_cons_self p m,
          by simpa using hc⟩)
      have hm : ¬ (m.any fun q => q.1 == k) = true := by
        intro hm'
        rcases List.any_eq_true.mp hm' with ⟨q, hq, hqk⟩
        exact h (List.any_eq_true.mpr ⟨q, List.mem_cons_of_mem p hq, hqk⟩)
      simpa [List.find?_cons, hp] using ih hm

lemma alGet_alSet_ne {β : Type} (m : List (String × β)) (k k' : String) (v : β)
    (h : k' ≠ k) : alGet (alSet m k v) k' = alGet m k' := by
  unfold alGet alSet
  have hkk : ¬ k = k' := Ne.symm h
  split_ifs with hs
  · clear hs
    induction m with
    | nil => rfl
    | cons p m ih =>
      by_cases hp : p.1 = k
      · simpa [List.find?_cons, hp, hkk] using ih
      · by_cases hq : p.1 = k'
        · simp [List.find?_cons, hp, hq, h]
        · simpa [List.find?_cons, hp, hq] using ih
  · rw [List.find?_append]
    cases hfind : List.find? (fun p => p.1 == k') m <;>
      simp [hfind, List.find?_cons, hkk]

/-- The reservoir loop returns its seed selection or an element of the
remaining list. -/
lemma wrsLoop_mem (rng : ℕ → ℚ) :
    ∀ (l : List WeightedEntry) (i : ℕ) (total : ℝ) (sel : WeightedEntry),
      wrsLoop rng l i total sel = sel ∨ wrsLoop rng l i total sel ∈ l := by
  intro l
  induction l with
  | nil => intro i total sel; left; rfl
  | cons e rest ih =>
    intro i total sel
    simp only [wrsLoop]
    by_cases h : (rng i : ℝ) * (total + e.weight) < e.weight
    · rw [if_pos h]
      rcases ih (i + 1) (total + e.weight) e with h' | h'
      · right; rw [h']; exact List.mem_cons_self e rest
      · right; exact List.mem_cons_of_mem e h'
    · rw [if_neg h]
      rcases ih (i + 1) (total + e.weight) sel with h' | h'
      · left; exact h'
      · right; exact List.mem_cons_of_mem e h'

/-- With all-zero weights the test `rng() * total < weight` is `0 < 0` at
every step, so the loop never replaces its selection. -/
lemma wrsLoop_zero (rng : ℕ → ℚ) :
    ∀ (l : List WeightedEntry) (i : ℕ) (sel : WeightedEntry),
      (∀ w ∈ l, w.weight = 0) → wrsLoop rng l i 0 sel = sel := by
  intro l
  induction l with
  | nil => intro i sel _; rfl
  | cons e rest ih =>
    intro i sel h
    have he : e.weight = 0 := h e (List.mem_cons_self e rest)
    simp only [wrsLoop, he, add_zero, mul_zero, lt_irrefl, if_false]
    exact ih (i + 1) sel (fun w hw => h w (List.mem_cons_of_mem e hw))

/-- Weighted selection of a nonempty list yields a member. -/
lemma weightedRandomSelection_mem (entries : List WeightedEntry) (rng : ℕ → ℚ)
    (h : entries ≠ []) :
    ∃ w, weightedRandomSelection entries rng = some w ∧ w ∈ entries := by
  match entries with
  | [] => exact absurd rfl h
  | e0 :: rest =>
    refine ⟨wrsLoop rng (e0 :: rest) 0 0 e0, rfl, ?_⟩
    rcases wrsLoop_mem rng (e0 :: rest) 0 0 e0 with h' | h'
    · rw [h']; exact List.mem_cons_self e0 rest
    · exact h'

/-- C10: weighted reservoir selection is total on nonempty input and returns
a member of its input (for any `[0,1)`-valued generator); with all-zero
computed weights it returns the first entry; consequently `selectDailyEntry`
and `selectRandomEntry` always return the id of one of the entries given. -/
theorem weightedSelection_safety :
    (∀ (entries : List WeightedEntry) (rng : ℕ → ℚ), entries ≠ [] →
      (∀ i, 0 ≤ rng i ∧ rng i < 1) →
      ∃ w, weightedRandomSelection entries rng = some w ∧ w ∈ entries) ∧
    (∀ (entries : List WeightedEntry) (rng : ℕ → ℚ),
      (∀ w ∈ entries, w.weight = 0) →
      weightedRandomSelection entries rng = entries.head?) ∧
    (∀ (entries : List EntryStub) (dateSeed : ℕ) (now : ℚ), entries ≠ [] →
      ∃ e ∈ entries, selectDailyEntry entries dateSeed now = some e.id) ∧
    (∀ (entries : List EntryStub) (rng : ℕ → ℚ) (now : ℚ), entries ≠ [] →
      ∃ e ∈ entries, selectRandomEntry entries rng now = some e.id) := by
  have hsel : ∀ (entries : List EntryStub) (rng : ℕ → ℚ) (now : ℚ),
      entries ≠ [] →
      ∃ e ∈ entries,
        (weightedRandomSelection (entries.map (fun e =>
          ({ e with weight := calculateEntryWeight now e } : WeightedEntry))) rng).map
            (·.id) = some e.id := by
    intro entries rng now h
    have hne : entries.map (fun e =>
        ({ e with weight := calculateEntryWeight now e } : WeightedEntry)) ≠ [] := by
      simpa using h
    obtain ⟨w, hw, hmem⟩ := weightedRandomSelection_mem _ rng hne
    obtain ⟨e, he, rfl⟩ := List.mem_map.mp hmem
    exact ⟨e, he, by rw [hw]; rfl⟩
  refine ⟨fun entries rng h _ => weightedRandomSelection_mem entries rng h,
    ?_, fun entries dateSeed now h => hsel entries (mulberry32 dateSeed) now h,
    fun entries rng now h => hsel entries rng now h⟩
  intro entries rng h
  match entries with
  | [] => rfl
  | e0 :: rest =>
    show some (wrsLoop rng (e0 :: rest) 0 0 e0) = some e0
    rw [wrsLoop_zero rng (e0 :: rest) 0 e0 h]

/-- Witness for C10 at concrete inputs. -/
theorem weightedSelection_safety_witness :
    (∃ w, weightedRandomSelection [⟨⟨5, "meditations", 0, none, none, none⟩, 10⟩]
        (fun _ => 0) = some w ∧
        w ∈ [(⟨⟨5, "meditations", 0, none, none, none⟩, 10⟩ : WeightedEntry)]) ∧
    (∃ e ∈ [(⟨5, "meditations", 0, none, none, none⟩ : EntryStub)],
      selectDailyEntry [⟨5, "meditations", 0, none, none, none⟩] 7 0 = some e.id) ∧
    (∃ e ∈ [(⟨5, "meditations", 0, none, none, none⟩ : EntryStub)],
      selectRandomEntry [⟨5, "meditations", 0, none, none, none⟩] (fun _ => 0) 0 =
        some e.id) :=
  ⟨weightedSelection_safety.1 _ (fun _ => 0) (by simp) (fun _ => by norm_num),
   weightedSelection_safety.2.2.1 _ 7 0 (by simp),
   weightedSelection_safety.2.2.2 _ (fun _ => 0) 0 (by simp)⟩

/-- For a two-entry list the reservoir keeps the first entry after step one
(both branches of the first test hold it) and step two replaces it exactly
when `rng(1) · (w₁ + w₂) < w₂`. -/
lemma weightedRandomSelection_pair (a b : WeightedEntry) (rng : ℕ → ℚ) :
    weightedRandomSelection [a, b] rng =
      some (if (rng 1 : ℝ) * (a.weight + b.weight) < b.weight then b else a) := by
  simp [weightedRandomSelection, wrsLoop, zero_add]

lemma calculateEntryWeight_neverSeen (now : ℚ) :
    calculateEntryWeight now stubNeverSeen = 10 := by
  simp [calculateEntryWeight, stubNeverSeen, NEVER_SEEN_WEIGHT, MARKED_BOOST,
    sourceWeightOf, SOURCE_WEIGHTS]

lemma calculateEntryWeight_seenMidnight (now : ℚ) (h5 : now / 86400000 / 30 ≤ 5) :
    calculateEntryWeight now stubSeenMidnight = ((now / 86400000 / 30 : ℚ) : ℝ) := by
  simp only [calculateEntryWeight, stubSeenMidnight, Option.getD_some, RECHARGE_DAYS,
    sourceWeightOf, SOURCE_WEIGHTS, MARKED_BOOST]
  norm_num
  exact_mod_cast h5

lemma mulberry_zero_second : mulberry32 0 1 = 1416247 / 4294967296 := by
  have h : mulberryMix (mulberryState 0 1) = 1416247 := by decide
  rw [mulberry32, h]
  norm_num

/-- C1: the failing input evaluated.  With the database state fixed (entry 2
viewed once, last seen at midnight) and the same date seed `0`, a call at
01:00 (`now = 3600000` ms) selects entry 1 while a call at 22:13
(`now = 80000000` ms) of the same day selects entry 2: `calculateEntryWeight`
reads the invocation's clock, so the recency-decayed weight of a seen entry
grows during the day and flips a reservoir decision, contradicting the
documented "same seed (date) always returns the same entry". -/
theorem selectDailyEntry_time_dependent :
    selectDailyEntry [stubNeverSeen, stubSeenMidnight] 0 3600000 = some 1 ∧
    selectDailyEntry [stubNeverSeen, stubSeenMidnight] 0 80000000 = some 2 := by
  have hpair : ∀ now : ℚ, now / 86400000 / 30 ≤ 5 →
      selectDailyEntry [stubNeverSeen, stubSeenMidnight] 0 now =
        some (if ((mulberry32 0 1 : ℚ) : ℝ) * (10 + ((now / 86400000 / 30 : ℚ) : ℝ)) <
            ((now / 86400000 / 30 : ℚ) : ℝ) then 2 else 1) := by
    intro now h5
    show (weightedRandomSelection
        [{ stubNeverSeen with weight := calculateEntryWeight now stubNeverSeen },
         { stubSeenMidnight with weight := calculateEntryWeight now stubSeenMidnight }]
        (mulberry32 0)).map (·.id) = _
    rw [weightedRandomSelection_pair]
    rw [Option.map_some']
    rw [apply_ite (fun w : WeightedEntry => w.id)]
    simp only [calculateEntryWeight_neverSeen, calculateEntryWeight_seenMidnight now h5]
    rfl
  constructor
  · rw [hpair 3600000 (by norm_num), if_neg]
    rw [mulberry_zero_second]
    push_cast
    norm_num
  · rw [hpair 80000000 (by norm_num), if_pos]
    rw [mulberry_zero_second]
    push_cast
    norm_num

/-- C3: a failed semantic fetch is caught, not re-raised: the pipeline result
is identical to a run with an empty semantic candidate set (lexical-only
retrieval), and in that run every pooled candidate's blended score is
`lexicalNorm · sourceBoost` — blend weights `0` for semantic and `1` for
lexical. -/
theorem searchEntriesHybrid_semantic_failure (db : List EntryRow)
    (rawQuery : String) (o : SearchOptions) (e : Unit) :
    searchEntriesHybrid db rawQuery o (.error e) =
      searchEntriesHybrid db rawQuery o (.ok []) ∧
    hybridCombined db rawQuery o [] =
      (finalMapsOf db rawQuery o []).2.map (fun kv =>
        { row := kv.2, score := 0,
          weightedScore :=
            (if 0 < listMax ((finalMapsOf db rawQuery o []).1.map (·.2)) then
              ((alGet (finalMapsOf db rawQuery o []).1 kv.1).getD 0) /
                listMax ((finalMapsOf db rawQuery o []).1.map (·.2))
            else 0) * sourceWeightForSearch kv.2.source }) := by
  constructor
  · rfl
  · have h0 : normalizeSemanticScore 0 0 0 = 0 := by
      norm_num [normalizeSemanticScore]
    simp only [hybridCombined]
    apply List.map_congr_left
    intro kv _
    simp [semanticScoreByKey, hasSemanticCandidates, alGet, listMin, listMax, h0]

/-! ### Row-map invariants: every stored pair is keyed by its row's key and
holds a database row -/

lemma alSet_forall {β : Type} (P : String × β → Prop) (m : List (String × β))
    (k : String) (v : β) (hm : ∀ p ∈ m, P p) (hkv : P (k, v)) :
    ∀ p ∈ alSet m k v, P p := by
  unfold alSet
  split_ifs
  · intro p hp
    rcases List.mem_map.mp hp with ⟨q, hq, rfl⟩
    by_cases hqk : q.1 = k
    · simpa [hqk] using hkv
    · simpa [hqk] using hm q hq
  · intro p hp
    rcases List.mem_append.mp hp with h | h
    · exact hm p h
    · rcases List.mem_singleton.mp h with rfl
      exact hkv

lemma alGet_mem {β : Type} (m : List (String × β)) (k : String) (v : β)
    (h : alGet m k = some v) : (k, v) ∈ m := by
  unfold alGet at h
  cases hf : List.find? (fun p => p.1 == k) m with
  | none => rw [hf] at h; cases h
  | some p =>
    rw [hf] at h
    have hp : p ∈ m := List.mem_of_find?_eq_some hf
    have hk : p.1 = k := by simpa using List.find?_some hf
    have hv : p.2 = v := by simpa using h
    have : p = (k, v) := Prod.ext hk hv
    exact this ▸ hp

/-- Invariant of `fetchRowsForRefs`: each stored pair is `(rowKey r, r)` with
`r` a database row. -/
lemma fetchRowsForRefs_inv (db : List EntryRow) (refs : List EntryRef) :
    ∀ p ∈ fetchRowsForRefs db refs, p.1 = rowKey p.2 ∧ p.2 ∈ db := by
  unfold fetchRowsForRefs
  have inner : ∀ (rows : List EntryRow) (m : List (String × EntryRow)),
      (∀ r ∈ rows, r ∈ db) → (∀ p ∈ m, p.1 = rowKey p.2 ∧ p.2 ∈ db) →
      ∀ p ∈ rows.foldl (fun m row => alSet m (rowKey row) row) m,
        p.1 = rowKey p.2 ∧ p.2 ∈ db := by
    intro rows
    induction rows with
    | nil => exact fun m _ hm => hm
    | cons r rows ih =>
      intro m hr hm
      exact ih _ (fun x hx => hr x (List.mem_cons_of_mem r hx))
        (alSet_forall _ m (rowKey r) r hm ⟨rfl, hr r (List.mem_cons_self r rows)⟩)
  have main : ∀ (chunks : List (List EntryRef)) (m : List (String × EntryRow)),
      (∀ p ∈ m, p.1 = rowKey p.2 ∧ p.2 ∈ db) →
      ∀ p ∈ chunks.foldl (fun rowsByKey chunk =>
          (db.filter (fun row => chunk.any (fun ref =>
            ref.source == row.source && ref.book == row.book &&
              ref.entry == row.entry))).foldl
            (fun m row => alSet m (rowKey row) row) rowsByKey) m,
        p.1 = rowKey p.2 ∧ p.2 ∈ db := by
    intro chunks
    induction chunks with
    | nil => exact fun m hm => hm
    | cons c cs ih =>
      intro m hm
      exact ih _ (inner _ _ (fun r hr => List.mem_of_mem_filter hr) hm)
  exact main _ _ (by simp)

lemma semanticRowsByKey_inv (db : List EntryRow) (semCands : List SemanticCandidate) :
    ∀ p ∈ semanticRowsByKey db semCands, p.1 = rowKey p.2 ∧ p.2 ∈ db :=
  fetchRowsForRefs_inv db _

lemma initialMapsOf_inv (db : List EntryRow) (semCands : List SemanticCandidate) :
    ∀ p ∈ (initialMapsOf db semCands).2, p.1 = rowKey p.2 ∧ p.2 ∈ db := by
  unfold initialMapsOf
  have main : ∀ (l : List (String × ℚ))
      (mp : List (String × ℚ) × List (String × EntryRow)),
      (∀ p ∈ mp.2, p.1 = rowKey p.2 ∧ p.2 ∈ db) →
      ∀ p ∈ (l.foldl (fun maps kv =>
          let rowByKey := match alGet (semanticRowsByKey db semCands) kv.1 with
            | some row => alSet maps.2 kv.1 row
            | none => maps.2
          (alSet maps.1 kv.1 0, rowByKey)) mp).2,
        p.1 = rowKey p.2 ∧ p.2 ∈ db := by
    intro l
    induction l with
    | nil => exact fun mp hmp => hmp
    | cons kv l ih =>
      intro mp hmp
      apply ih
      dsimp only
      cases hget : alGet (semanticRowsByKey db semCands) kv.1 with
      | none => exact hmp
      | some row =>
        have hrow := semanticRowsByKey_inv db semCands _ (alGet_mem _ _ _ hget)
        exact alSet_forall _ _ _ _ hmp ⟨hrow.1, hrow.2⟩
  exact main _ _ (by simp)

lemma semLexMapsOf_inv (db : List EntryRow) (rawQuery : String)
    (semCands : List SemanticCandidate) :
    ∀ p ∈ (semLexMapsOf db rawQuery semCands).2, p.1 = rowKey p.2 ∧ p.2 ∈ db := by
  unfold semLexMapsOf
  have main : ∀ (rows : List EntryRow)
      (mp : List (String × ℚ) × List (String × EntryRow)),
      (∀ r ∈ rows, r ∈ db) → (∀ p ∈ mp.2, p.1 = rowKey p.2 ∧ p.2 ∈ db) →
      ∀ p ∈ (rows.foldl (fun maps row =>
          (alSet maps.1 (rowKey row)
            (lexicalScoreForRow row (normalizedQueryOf rawQuery)
              (coreTokensOf rawQuery) (expandedTokensOf rawQuery)
              (parseCitation rawQuery)),
           alSet maps.2 (rowKey row) row)) mp).2,
        p.1 = rowKey p.2 ∧ p.2 ∈ db := by
    intro rows
    induction rows with
    | nil => exact fun mp _ hmp => hmp
    | cons r rows ih =>
      intro mp hr hmp
      exact ih _ (fun x hx => hr x (List.mem_cons_of_mem r hx))
        (alSet_forall _ _ _ _ hmp ⟨rfl, hr r (List.mem_cons_self r rows)⟩)
  refine main _ _ (fun r hr => ?_) (initialMapsOf_inv db semCands)
  rcases List.mem_map.mp hr with ⟨p, hp, rfl⟩
  exact (semanticRowsByKey_inv db semCands p hp).2

lemma fetchLexicalRows_subset (db : List EntryRow) (terms : List String)
    (limit : ℕ) : ∀ r ∈ fetchLexicalRows db terms limit, r ∈ db := by
  intro r hr
  unfold fetchLexicalRows at hr
  by_cases h1 : terms = []
  · rw [if_pos h1] at hr
    cases hr
  · rw [if_neg h1] at hr
    by_cases h2 : (terms.filter (fun t => 3 ≤ (strTrim t).length)).take 12 = []
    · rw [if_pos h2] at hr
      cases hr
    · rw [if_neg h2] at hr
      exact List.mem_of_mem_filter (List.mem_of_mem_take hr)

lemma lexicalRowsOf_subset (db : List EntryRow) (rawQuery : String)
    (o : SearchOptions) (semCands : List SemanticCandidate) :
    ∀ r ∈ lexicalRowsOf db rawQuery o semCands, r ∈ db :=
  fetchLexicalRows_subset db _ _

lemma fetchCitationRows_subset (db : List EntryRow) (citation : Option Citation) :
    ∀ r ∈ fetchCitationRows db citation, r ∈ db := by
  intro r hr
  unfold fetchCitationRows at hr
  cases citation with
  | none => cases hr
  | some c =>
    obtain ⟨csrc, cbook, centry⟩ := c
    dsimp only at hr
    cases csrc with
    | none =>
      dsimp only at hr
      exact List.mem_of_mem_filter hr
    | some src =>
      dsimp only at hr
      by_cases hs : isSearchableSource src = true
      · rw [if_pos hs] at hr
        cases hfind : List.find? (fun q =>
            q.source == src && q.book == cbook && q.entry == centry) db with
        | none =>
          simp only [hfind] at hr
          cases hr
        | some q =>
          simp only [hfind] at hr
          rcases List.mem_singleton.mp hr with rfl
          exact List.mem_of_find?_eq_some hfind
      · rw [if_neg hs] at hr
        cases hr

lemma citationRowsOf_subset (db : List EntryRow) (rawQuery : String) :
    ∀ r ∈ citationRowsOf db rawQuery, r ∈ db :=
  fetchCitationRows_subset db _

lemma finalMapsOf_inv (db : List EntryRow) (rawQuery : String) (o : SearchOptions)
    (semCands : List SemanticCandidate) :
    ∀ p ∈ (finalMapsOf db rawQuery o semCands).2, p.1 = rowKey p.2 ∧ p.2 ∈ db := by
  unfold finalMapsOf
  have main : ∀ (rows : List EntryRow)
      (mp : List (String × ℚ) × List (String × EntryRow)),
      (∀ r ∈ rows, r ∈ db) → (∀ p ∈ mp.2, p.1 = rowKey p.2 ∧ p.2 ∈ db) →
      ∀ p ∈ (rows.foldl (fun maps row =>
          if admitsLexicalRow db rawQuery semCands row then
            let key := rowKey row
            let score := lexicalScoreForRow row (normalizedQueryOf rawQuery)
              (coreTokensOf rawQuery) (expandedTokensOf rawQuery)
              (parseCitation rawQuery)
            let current := (alGet maps.1 key).getD 0
            ((if current < score then alSet maps.1 key score else maps.1),
              alSet maps.2 key row)
          else maps) mp).2,
        p.1 = rowKey p.2 ∧ p.2 ∈ db := by
    intro rows
    induction rows with
    | nil => exact fun mp _ hmp => hmp
    | cons r rows ih =>
      intro mp hr hmp
      apply ih _ (fun x hx => hr x (List.mem_cons_of_mem r hx))
      by_cases hadm : admitsLexicalRow db rawQuery semCands r
      · simp only [if_pos hadm]
        exact alSet_forall _ _ _ _ hmp ⟨rfl, hr r (List.mem_cons_self r rows)⟩
      · simpa [hadm] using hmp
  refine main _ _ (fun r hr => ?_) (semLexMapsOf_inv db rawQuery semCands)
  rcases List.mem_append.mp hr with h | h
  · exact lexicalRowsOf_subset db rawQuery o semCands r h
  · exact citationRowsOf_subset db rawQuery r h

lemma rankLE_trans (a b c : Combined) (hab : rankLE a b = true)
    (hbc : rankLE b c = true) : rankLE a c = true := by
  unfold rankLE at hab hbc ⊢
  by_cases h1 : a.weightedScore = b.weightedScore
  · rw [if_pos h1] at hab
    by_cases h2 : b.weightedScore = c.weightedScore
    · rw [if_pos h2] at hbc
      rw [if_pos (h1.trans h2)]
      exact decide_eq_true (le_trans (of_decide_eq_true hbc) (of_decide_eq_true hab))
    · rw [if_neg h2] at hbc
      have hcb : c.weightedScore < b.weightedScore := of_decide_eq_true hbc
      have h3 : ¬ a.weightedScore = c.weightedScore := fun h => h2 (h1.symm.trans h)
      rw [if_neg h3]
      exact decide_eq_true (h1 ▸ hcb)
  · rw [if_neg h1] at hab
    have hba : b.weightedScore < a.weightedScore := of_decide_eq_true hab
    by_cases h2 : b.weightedScore = c.weightedScore
    · have h3 : ¬ a.weightedScore = c.weightedScore := fun h => h1 (h.trans h2.symm)
      rw [if_neg h3]
      exact decide_eq_true (h2 ▸ hba)
    · rw [if_neg h2] at hbc
      have hcb : c.weightedScore < b.weightedScore := of_decide_eq_true hbc
      have h3 : ¬ a.weightedScore = c.weightedScore := by
        intro h
        rw [h] at hba
        exact absurd (lt_trans hcb hba) (lt_irrefl _)
      rw [if_neg h3]
      exact decide_eq_true (lt_trans hcb hba)

lemma rankLE_total (a b : Combined) : (rankLE a b || rankLE b a) = true := by
  unfold rankLE
  by_cases h1 : a.weightedScore = b.weightedScore
  · rw [if_pos h1, if_pos h1.symm]
    rcases le_total b.score a.score with h | h
    · rw [decide_eq_true h, Bool.true_or]
    · rw [decide_eq_true h, Bool.or_true]
  · have h2 : ¬ b.weightedScore = a.weightedScore := fun hh => h1 hh.symm
    rw [if_neg h1, if_neg h2]
    rcases lt_trichotomy a.weightedScore b.weightedScore with h | h | h
    · rw [decide_eq_true h, Bool.or_true]
    · exact absurd h h1
    · rw [decide_eq_true h, Bool.true_or]

/-- C5: every combined candidate's blended score is
`(semanticNorm·0.9 + lexicalNorm·0.1)·sourceBoost` when semantic candidates
exist and `lexicalNorm·sourceBoost` otherwise, where `lexicalNorm` is the raw
lexical score over the query's maximum raw lexical score (`0` if none),
`sourceBoost = 1 + (priority − 1)·0.4`, and its `score` field is the raw
semantic score; the sorted stage is ordered by descending blended score with
ties broken by descending raw semantic score. -/
theorem hybridScore_blend_and_sort (db : List EntryRow) (rawQuery : String)
    (o : SearchOptions) (semCands : List SemanticCandidate) :
    (∀ c ∈ hybridCombined db rawQuery o semCands,
      c.score = (alGet (semanticScoreByKey db semCands) (rowKey c.row)).getD 0 ∧
      c.weightedScore =
        (let lm := (finalMapsOf db rawQuery o semCands).1
         let lexMax := listMax (lm.map (·.2))
         let lexNorm : ℚ :=
           if 0 < lexMax then ((alGet lm (rowKey c.row)).getD 0) / lexMax else 0
         let semNorm := normalizeSemanticScore
           ((alGet (semanticScoreByKey db semCands) (rowKey c.row)).getD 0)
           (listMin ((semanticScoreByKey db semCands).map (·.2)))
           (listMax ((semanticScoreByKey db semCands).map (·.2)))
         let sourceBoost := 1 + (sourceWeightOf c.row.source - 1) * (2/5)
         if hasSemanticCandidates db semCands then
           (semNorm * (9/10) + lexNorm * (1/10)) * sourceBoost
         else lexNorm * sourceBoost)) ∧
    (hybridSorted db rawQuery o semCands).Pairwise (fun a b =>
      b.weightedScore < a.weightedScore ∨
        (a.weightedScore = b.weightedScore ∧ b.score ≤ a.score)) := by
  constructor
  · intro c hc
    unfold hybridCombined at hc
    rcases List.mem_map.mp hc with ⟨kv, hkv, rfl⟩
    have hinv := finalMapsOf_inv db rawQuery o semCands kv hkv
    dsimp only
    have hkey : rowKey kv.2 = kv.1 := hinv.1.symm
    rw [hkey]
    refine ⟨rfl, ?_⟩
    unfold sourceWeightForSearch
    by_cases hs : hasSemanticCandidates db semCands = true
    · simp only [hs, if_true]
    · simp only [hs, Bool.false_eq_true, if_false]
      ring
  · have hs := List.sorted_mergeSort rankLE_trans rankLE_total
      (hybridCombined db rawQuery o semCands)
    refine hs.imp ?_
    intro a b hab
    unfold rankLE at hab
    by_cases h : a.weightedScore = b.weightedScore
    · rw [if_pos h] at hab
      exact Or.inr ⟨h, by simpa using hab⟩
    · rw [if_neg h] at hab
      exact Or.inl (by simpa using hab)

/-! ### Concrete evaluation of the pipeline on `dbCitation`, query `"1.2"` -/

lemma lexicalScoreForRow_rowCitation :
    lexicalScoreForRow rowCitation (normalizedQueryOf "1.2") (coreTokensOf "1.2")
      (expandedTokensOf "1.2") (parseCitation "1.2") = 5/2 := by
  have h1 : normalizedQueryOf "1.2" = "1 2" := rfl
  have h2 : coreTokensOf "1.2" = [] := rfl
  have h3 : expandedTokensOf "1.2" = [] := rfl
  have h4 : parseCitation "1.2" = some ⟨none, 1, "2"⟩ := rfl
  have h5 : containsSub (normalizeText rowCitation.text).data "1 2".data = false := by
    decide
  have h6 : isCitationMatchRow rowCitation (some ⟨none, 1, "2"⟩) = true := by decide
  rw [h1, h2, h3, h4]
  norm_num [lexicalScoreForRow, h5, h6]

lemma finalMapsOf_dbCitation :
    finalMapsOf dbCitation "1.2" {} [] =
      ([("meditations-1-2", 5/2)], [("meditations-1-2", rowCitation)]) := by
  have hlex : lexicalRowsOf dbCitation "1.2" {} [] = [] := by decide
  have hcit : citationRowsOf dbCitation "1.2" = [rowCitation] := by decide
  have hsemlex : semLexMapsOf dbCitation "1.2" [] = ([], []) := rfl
  have hadm : admitsLexicalRow dbCitation "1.2" [] rowCitation = true := by decide
  have hkey : rowKey rowCitation = "meditations-1-2" := by decide
  unfold finalMapsOf
  rw [hlex, hcit, hsemlex]
  simp only [List.nil_append, List.foldl_cons, List.foldl_nil, hadm, if_true]
  rw [lexicalScoreForRow_rowCitation, hkey]
  norm_num [alGet, alSet]

lemma hybridCombined_dbCitation :
    hybridCombined dbCitation "1.2" {} [] = [⟨rowCitation, 0, 1⟩] := by
  have hsck : semanticScoreByKey dbCitation [] = [] := rfl
  have hhas : hasSemanticCandidates dbCitation [] = false := rfl
  have hsw : sourceWeightOf rowCitation.source = 1 := by
    norm_num [sourceWeightOf, SOURCE_WEIGHTS, List.lookup, rowCitation]
  have hkey : rowKey rowCitation = "meditations-1-2" := by decide
  unfold hybridCombined
  rw [finalMapsOf_dbCitation, hsck, hhas]
  simp only [List.map_cons, List.map_nil, List.foldl_nil]
  norm_num [alGet, listMax, listMin, normalizeSemanticScore, sourceWeightForSearch,
    hsw]

/-- Witness for C5, applying the blend/sort theorem at the concrete single
citation-match candidate (lexical-only branch, `weightedScore = 1`). -/
theorem hybridScore_blend_and_sort_witness :
    (⟨rowCitation, 0, 1⟩ : Combined) ∈ hybridCombined dbCitation "1.2" {} [] ∧
    ((⟨rowCitation, 0, 1⟩ : Combined).score =
        (alGet (semanticScoreByKey dbCitation [])
          (rowKey (⟨rowCitation, 0, 1⟩ : Combined).row)).getD 0 ∧
      (⟨rowCitation, 0, 1⟩ : Combined).weightedScore =
        (let lm := (finalMapsOf dbCitation "1.2" {} []).1
         let lexMax := listMax (lm.map (·.2))
         let lexNorm : ℚ :=
           if 0 < lexMax then
             ((alGet lm (rowKey (⟨rowCitation, 0, 1⟩ : Combined).row)).getD 0) / lexMax
           else 0
         let semNorm := normalizeSemanticScore
           ((alGet (semanticScoreByKey dbCitation [])
             (rowKey (⟨rowCitation, 0, 1⟩ : Combined).row)).getD 0)
           (listMin ((semanticScoreByKey dbCitation []).map (·.2)))
           (listMax ((semanticScoreByKey dbCitation []).map (·.2)))
         let sourceBoost := 1 +
           (sourceWeightOf (⟨rowCitation, 0, 1⟩ : Combined).row.source - 1) * (2/5)
         if hasSemanticCandidates dbCitation [] then
           (semNorm * (9/10) + lexNorm * (1/10)) * sourceBoost
         else lexNorm * sourceBoost)) := by
  have hmem : (⟨rowCitation, 0, 1⟩ : Combined) ∈ hybridCombined dbCitation "1.2" {} [] := by
    rw [hybridCombined_dbCitation]
    exact List.mem_singleton.mpr rfl
  exact ⟨hmem, (hybridScore_blend_and_sort dbCitation "1.2" {} []).1 _ hmem⟩

/-! ### Key provenance: which keys the pipeline maps can contain -/

lemma chunks40Go_subset {α : Type} :
    ∀ (l : List α) (cap : ℕ) (acc : List α),
      ∀ c ∈ chunks40Go l cap acc, ∀ x ∈ c, x ∈ l ∨ x ∈ acc := by
  intro l
  induction l with
  | nil =>
    intro cap acc c hc x hx
    match acc with
    | [] => cases hc
    | a :: as =>
      rcases List.mem_singleton.mp hc with rfl
      exact Or.inr (List.mem_reverse.mp hx)
  | cons y ys ih =>
    intro cap acc c hc x hx
    match cap with
    | 0 =>
      rw [chunks40Go] at hc
      rcases List.mem_cons.mp hc with rfl | hc'
      · exact Or.inr (List.mem_reverse.mp hx)
      · rcases ih 39 [y] c hc' x hx with h | h
        · exact Or.inl (List.mem_cons_of_mem y h)
        · rcases List.mem_singleton.mp h with rfl
          exact Or.inl (List.mem_cons_self x ys)
    | cap + 1 =>
      rw [chunks40Go] at hc
      rcases ih cap (y :: acc) c hc x hx with h | h
      · exact Or.inl (List.mem_cons_of_mem y h)
      · rcases List.mem_cons.mp h with rfl | h'
        · exact Or.inl (List.mem_cons_self x ys)
        · exact Or.inr h'

lemma chunks40_subset {α : Type} (l : List α) :
    ∀ c ∈ chunks40 l, ∀ x ∈ c, x ∈ l := by
  intro c hc x hx
  rcases chunks40Go_subset l 40 [] c hc x hx with h | h
  · exact h
  · cases h

/-- Every key of `fetchRowsForRefs` is the key of one of the requested
references. -/
lemma fetchRowsForRefs_keys (db : List EntryRow) (refs : List EntryRef) :
    ∀ k ∈ (fetchRowsForRefs db refs).map (·.1), ∃ ref ∈ refs, refKey ref = k := by
  unfold fetchRowsForRefs
  have hvals : ∀ p ∈ refs.foldl (fun m r => alSet m (refKey r) r)
      ([] : List (String × EntryRef)), p.2 ∈ refs := by
    have gen : ∀ (l : List EntryRef) (m : List (String × EntryRef)),
        (∀ r ∈ l, r ∈ refs) → (∀ p ∈ m, p.2 ∈ refs) →
        ∀ p ∈ l.foldl (fun m r => alSet m (refKey r) r) m, p.2 ∈ refs := by
      intro l
      induction l with
      | nil => exact fun m _ hm => hm
      | cons r l ih =>
        intro m hl hm
        exact ih _ (fun x hx => hl x (List.mem_cons_of_mem r hx))
          (alSet_forall _ _ _ _ hm (hl r (List.mem_cons_self r l)))
    exact gen refs [] (fun r hr => hr) (by simp)
  have hrefList : ∀ r ∈ (refs.foldl (fun m r => alSet m (refKey r) r)
      ([] : List (String × EntryRef))).map (·.2), r ∈ refs := by
    intro r hr
    rcases List.mem_map.mp hr with ⟨p, hp, rfl⟩
    exact hvals p hp
  have hinner : ∀ (rows : List EntryRow) (m : List (String × EntryRow)),
      ∀ k ∈ (rows.foldl (fun m row => alSet m (rowKey row) row) m).map (·.1),
        k ∈ m.map (·.1) ∨ ∃ row ∈ rows, rowKey row = k := by
    intro rows
    induction rows with
    | nil => exact fun m k hk => Or.inl hk
    | cons r rows ih =>
      intro m k hk
      rcases ih _ k hk with h | ⟨row, hrow, hkey⟩
      · rcases mem_keys_of_mem_keys_alSet _ _ _ h with rfl | h'
        · exact Or.inr ⟨r, List.mem_cons_self r rows, rfl⟩
        · exact Or.inl h'
      · exact Or.inr ⟨row, List.mem_cons_of_mem r hrow, hkey⟩
  have hmain : ∀ (chunks : List (List EntryRef)) (m : List (String × EntryRow)),
      (∀ c ∈ chunks, ∀ r ∈ c, r ∈ refs) →
      (∀ k ∈ m.map (·.1), ∃ ref ∈ refs, refKey ref = k) →
      ∀ k ∈ (chunks.foldl (fun rowsByKey chunk =>
          (db.filter (fun row => chunk.any (fun ref =>
            ref.source == row.source && ref.book == row.book &&
              ref.entry == row.entry))).foldl
            (fun m row => alSet m (rowKey row) row) rowsByKey) m).map (·.1),
        ∃ ref ∈ refs, refKey ref = k := by
    intro chunks
    induction chunks with
    | nil => exact fun m _ hm => hm
    | cons c cs ih =>
      intro m hc hm k hk
      refine ih _ (fun c' hc' => hc c' (List.mem_cons_of_mem c hc')) ?_ k hk
      intro k' hk'
      rcases hinner _ _ k' hk' with h | ⟨row, hrow, hkey⟩
      · exact hm k' h
      · have hfilter := List.of_mem_filter hrow
        rcases List.any_eq_true.mp hfilter with ⟨ref, href, heq⟩
        have heq' : ref.source = row.source ∧ ref.book = row.book ∧
            ref.entry = row.entry := by
          simpa [and_assoc] using heq
        refine ⟨ref, hc c (List.mem_cons_self c cs) ref href, ?_⟩
        rw [← hkey]
        unfold refKey rowKey keyFor
        rw [heq'.1, heq'.2.1, heq'.2.2]
  exact hmain _ _ (fun c hc r hr => hrefList r (chunks40_subset _ c hc r hr))
    (by simp)

/-- Every key of `semanticScoreByKey` is the key of one of the candidates. -/
lemma semanticScoreByKey_keys (db : List EntryRow)
    (semCands : List SemanticCandidate) :
    ∀ k ∈ (semanticScoreByKey db semCands).map (·.1),
      ∃ c ∈ semCands, keyFor c.source c.book c.entry = k := by
  unfold semanticScoreByKey
  have gen : ∀ (l : List SemanticCandidate) (m : List (String × ℚ)),
      (∀ c ∈ l, c ∈ semCands) →
      (∀ k ∈ m.map (·.1), ∃ c ∈ semCands, keyFor c.source c.book c.entry = k) →
      ∀ k ∈ (l.foldl (fun m c =>
          let key := keyFor c.source c.book c.entry
          if (alGet (semanticRowsByKey db semCands) key).isNone then m
          else
            match alGet m key with
            | none => alSet m key c.score
            | some existing =>
              if existing < c.score then alSet m key c.score else m) m).map (·.1),
        ∃ c ∈ semCands, keyFor c.source c.book c.entry = k := by
    intro l
    induction l with
    | nil => exact fun m _ hm => hm
    | cons c l ih =>
      intro m hl hm
      refine ih _ (fun x hx => hl x (List.mem_cons_of_mem c hx)) ?_
      intro k hk
      dsimp only at hk
      by_cases hguard : (alGet (semanticRowsByKey db semCands)
          (keyFor c.source c.book c.entry)).isNone = true
      · rw [if_pos hguard] at hk
        exact hm k hk
      · rw [if_neg hguard] at hk
        have hofSet : k ∈ (alSet m (keyFor c.source c.book c.entry) c.score).map (·.1) →
            ∃ c' ∈ semCands, keyFor c'.source c'.book c'.entry = k := by
          intro hk'
          rcases mem_keys_of_mem_keys_alSet _ _ _ hk' with rfl | h'
          · exact ⟨c, hl c (List.mem_cons_self c l), rfl⟩
          · exact hm k h'
        cases hget : alGet m (keyFor c.source c.book c.entry) with
        | none =>
          rw [hget] at hk
          exact hofSet hk
        | some existing =>
          rw [hget] at hk
          dsimp only at hk
          by_cases hlt : existing < c.score
          · rw [if_pos hlt] at hk
            exact hofSet hk
          · rw [if_neg hlt] at hk
            exact hm k hk
  exact gen semCands [] (fun c hc => hc) (by simp)

/-- The fold building `semanticScoreByKey` never drops a key. -/
lemma semanticScoreByKey_fold_mono (db : List EntryRow)
    (semCands : List SemanticCandidate) :
    ∀ (l : List SemanticCandidate) (m : List (String × ℚ)) (k : String),
      k ∈ m.map (·.1) →
      k ∈ (l.foldl (fun m c =>
          let key := keyFor c.source c.book c.entry
          if (alGet (semanticRowsByKey db semCands) key).isNone then m
          else
            match alGet m key with
            | none => alSet m key c.score
            | some existing =>
              if existing < c.score then alSet m key c.score else m) m).map (·.1) := by
  intro l
  induction l with
  | nil => exact fun m k hk => hk
  | cons c l ih =>
    intro m k hk
    apply ih
    dsimp only
    split_ifs
    · exact hk
    · cases alGet m (keyFor c.source c.book c.entry) with
      | none => exact mem_keys_alSet_of_mem _ _ _ hk
      | some existing =>
        dsimp only
        split_ifs
        · exact mem_keys_alSet_of_mem _ _ _ hk
        · exact hk

/-- A candidate whose row was found contributes its key to
`semanticScoreByKey`. -/
lemma semanticScoreByKey_mem_of_cand (db : List EntryRow)
    (semCands : List SemanticCandidate) (c : SemanticCandidate)
    (hc : c ∈ semCands)
    (hrow : (alGet (semanticRowsByKey db semCands)
      (keyFor c.source c.book c.entry)).isSome = true) :
    keyFor c.source c.book c.entry ∈ (semanticScoreByKey db semCands).map (·.1) := by
  unfold semanticScoreByKey
  have gen : ∀ (l : List SemanticCandidate) (m : List (String × ℚ)), c ∈ l →
      keyFor c.source c.book c.entry ∈ (l.foldl (fun m c =>
        let key := keyFor c.source c.book c.entry
        if (alGet (semanticRowsByKey db semCands) key).isNone then m
        else
          match alGet m key with
          | none => alSet m key c.score
          | some existing =>
            if existing < c.score then alSet m key c.score else m) m).map (·.1) := by
    intro l
    induction l with
    | nil => intro m hc'; cases hc'
    | cons x l ih =>
      intro m hc'
      rcases List.mem_cons.mp hc' with rfl | hc'
      · rw [List.foldl_cons]
        apply semanticScoreByKey_fold_mono
        have hnotNone : ¬ ((alGet (semanticRowsByKey db semCands)
            (keyFor c.source c.book c.entry)).isNone = true) := by
          intro hn
          rw [Option.isNone_iff_eq_none.mp hn] at hrow
          exact Bool.false_ne_true hrow
        dsimp only
        rw [if_neg hnotNone]
        cases hget : alGet m (keyFor c.source c.book c.entry) with
        | none => exact mem_keys_alSet_self _ _ _
        | some existing =>
          dsimp only
          split_ifs
          · exact mem_keys_alSet_self _ _ _
          · exact (alGet_isSome_iff m _).mp (by rw [hget]; rfl)
      · rw [List.foldl_cons]
        exact ih _ hc'
  exact gen semCands [] hc

/-- Every key holding a semantic row also holds a semantic score. -/
lemma semanticRows_key_in_score (db : List EntryRow)
    (semCands : List SemanticCandidate) :
    ∀ k ∈ (semanticRowsByKey db semCands).map (·.1),
      k ∈ (semanticScoreByKey db semCands).map (·.1) := by
  intro k hk
  obtain ⟨ref, href, hrefkey⟩ :=
    fetchRowsForRefs_keys db (semCands.map candRef) k hk
  rcases List.mem_map.mp href with ⟨c, hc, rfl⟩
  have hkey : keyFor c.source c.book c.entry = k := hrefkey
  have hsome : (alGet (semanticRowsByKey db semCands) k).isSome = true :=
    (alGet_isSome_iff _ _).mpr hk
  rw [← hkey] at hsome ⊢
  exact semanticScoreByKey_mem_of_cand db semCands c hc hsome

/-- Before the third loop, the row map only carries semantic keys. -/
lemma semLexMapsOf_keys (db : List EntryRow) (rawQuery : String)
    (semCands : List SemanticCandidate) :
    ∀ k ∈ (semLexMapsOf db rawQuery semCands).2.map (·.1),
      k ∈ (semanticScoreByKey db semCands).map (·.1) := by
  have hinit : ∀ k ∈ (initialMapsOf db semCands).2.map (·.1),
      k ∈ (semanticScoreByKey db semCands).map (·.1) := by
    unfold initialMapsOf
    have gen : ∀ (l : List (String × ℚ))
        (mp : List (String × ℚ) × List (String × EntryRow)),
        (∀ kv ∈ l, kv.1 ∈ (semanticScoreByKey db semCands).map (·.1)) →
        (∀ k ∈ mp.2.map (·.1), k ∈ (semanticScoreByKey db semCands).map (·.1)) →
        ∀ k ∈ (l.foldl (fun maps kv =>
            let rowByKey := match alGet (semanticRowsByKey db semCands) kv.1 with
              | some row => alSet maps.2 kv.1 row
              | none => maps.2
            (alSet maps.1 kv.1 0, rowByKey)) mp).2.map (·.1),
          k ∈ (semanticScoreByKey db semCands).map (·.1) := by
      intro l
      induction l with
      | nil => exact fun mp _ hmp => hmp
      | cons kv l ih =>
        intro mp hl hmp
        refine ih _ (fun x hx => hl x (List.mem_cons_of_mem kv hx)) ?_
        intro k hk
        dsimp only at hk
        cases hget : alGet (semanticRowsByKey db semCands) kv.1 with
        | none =>
          rw [hget] at hk
          exact hmp k hk
        | some row =>
          rw [hget] at hk
          rcases mem_keys_of_mem_keys_alSet _ _ _ hk with rfl | h'
          · exact hl kv (List.mem_cons_self kv l)
          · exact hmp k h'
    exact gen _ _ (fun kv hkv => List.mem_map_of_mem (·.1) hkv) (by simp)
  unfold semLexMapsOf
  have gen2 : ∀ (rows : List EntryRow)
      (mp : List (String × ℚ) × List (String × EntryRow)),
      (∀ row ∈ rows, rowKey row ∈ (semanticScoreByKey db semCands).map (·.1)) →
      (∀ k ∈ mp.2.map (·.1), k ∈ (semanticScoreByKey db semCands).map (·.1)) →
      ∀ k ∈ (rows.foldl (fun maps row =>
          (alSet maps.1 (rowKey row)
            (lexicalScoreForRow row (normalizedQueryOf rawQuery)
              (coreTokensOf rawQuery) (expandedTokensOf rawQuery)
              (parseCitation rawQuery)),
           alSet maps.2 (rowKey row) row)) mp).2.map (·.1),
        k ∈ (semanticScoreByKey db semCands).map (·.1) := by
    intro rows
    induction rows with
    | nil => exact fun mp _ hmp => hmp
    | cons r rows ih =>
      intro mp hr hmp
      refine ih _ (fun x hx => hr x (List.mem_cons_of_mem r hx)) ?_
      intro k hk
      rcases mem_keys_of_mem_keys_alSet _ _ _ hk with rfl | h'
      · exact hr r (List.mem_cons_self r rows)
      · exact hmp k h'
  refine gen2 _ _ (fun row hrow => ?_) hinit
  rcases List.mem_map.mp hrow with ⟨p, hp, rfl⟩
  have hinv := semanticRowsByKey_inv db semCands p hp
  rw [← hinv.1]
  exact semanticRows_key_in_score db semCands p.1 (List.mem_map_of_mem (·.1) hp)

lemma finalMapsOf_eq_fold (db : List EntryRow) (rawQuery : String)
    (o : SearchOptions) (semCands : List SemanticCandidate) :
    finalMapsOf db rawQuery o semCands =
      (lexicalRowsOf db rawQuery o semCands ++ citationRowsOf db rawQuery).foldl
        (finalStep db rawQuery semCands) (semLexMapsOf db rawQuery semCands) := rfl

lemma finalStep_keys_mono (db : List EntryRow) (rawQuery : String)
    (semCands : List SemanticCandidate) :
    ∀ (rows : List EntryRow) (mp : List (String × ℚ) × List (String × EntryRow))
      (k : String), k ∈ mp.2.map (·.1) →
      k ∈ (rows.foldl (finalStep db rawQuery semCands) mp).2.map (·.1) := by
  intro rows
  induction rows with
  | nil => exact fun mp k hk => hk
  | cons r rows ih =>
    intro mp k hk
    rw [List.foldl_cons]
    apply ih
    unfold finalStep
    split_ifs
    · exact mem_keys_alSet_of_mem _ _ _ hk
    · exact hk

lemma finalStep_admitted_mem (db : List EntryRow) (rawQuery : String)
    (semCands : List SemanticCandidate) :
    ∀ (rows : List EntryRow) (mp : List (String × ℚ) × List (String × EntryRow))
      (row : EntryRow), row ∈ rows →
      admitsLexicalRow db rawQuery semCands row = true →
      rowKey row ∈ (rows.foldl (finalStep db rawQuery semCands) mp).2.map (·.1) := by
  intro rows
  induction rows with
  | nil => intro mp row hrow; cases hrow
  | cons r rows ih =>
    intro mp row hrow hadm
    rcases List.mem_cons.mp hrow with rfl | hrow'
    · rw [List.foldl_cons]
      apply finalStep_keys_mono
      unfold finalStep
      rw [if_pos hadm]
      exact mem_keys_alSet_self _ _ _
    · rw [List.foldl_cons]
      exact ih _ row hrow' hadm

lemma finalStep_keys_origin (db : List EntryRow) (rawQuery : String)
    (semCands : List SemanticCandidate) :
    ∀ (rows : List EntryRow) (mp : List (String × ℚ) × List (String × EntryRow))
      (k : String),
      k ∈ (rows.foldl (finalStep db rawQuery semCands) mp).2.map (·.1) →
      k ∈ mp.2.map (·.1) ∨
        ∃ row ∈ rows, admitsLexicalRow db rawQuery semCands row = true ∧
          rowKey row = k := by
  intro rows
  induction rows with
  | nil => exact fun mp k hk => Or.inl hk
  | cons r rows ih =>
    intro mp k hk
    rw [List.foldl_cons] at hk
    rcases ih _ k hk with h | ⟨row, hrow, hadm, hkey⟩
    · unfold finalStep at h
      by_cases hadm : admitsLexicalRow db rawQuery semCands r = true
      · rw [if_pos hadm] at h
        rcases mem_keys_of_mem_keys_alSet _ _ _ h with rfl | h'
        · exact Or.inr ⟨r, List.mem_cons_self r rows, hadm, rfl⟩
        · exact Or.inl h'
      · rw [if_neg hadm] at h
        exact Or.inl h
    · exact Or.inr ⟨row, List.mem_cons_of_mem r hrow, hadm, hkey⟩

/-- C7: when semantic candidates exist, a lexical or citation row absent from
the semantic set reaches the candidate pool exactly when it is a citation
match or a strong lexical rescue; and "strong lexical rescue" means the full
normalized query (length ≥ 4) appears verbatim in the normalized entry text,
or at least `min 3 |coreTokens|` core tokens appear when `|coreTokens| ≥ 2`.
The database-key `Nodup` hypothesis is the `UNIQUE(source, book, entry)`
constraint of the `entries` table. -/
theorem lexicalAdmission_iff (db : List EntryRow) (rawQuery : String)
    (o : SearchOptions) (semCands : List SemanticCandidate)
    (hnodup : (db.map rowKey).Nodup) :
    (hasSemanticCandidates db semCands = true →
      ∀ row ∈ lexicalRowsOf db rawQuery o semCands ++ citationRowsOf db rawQuery,
        alGet (semanticScoreByKey db semCands) (rowKey row) = none →
        (rowKey row ∈ (finalMapsOf db rawQuery o semCands).2.map (·.1) ↔
          (isCitationMatchRow row (parseCitation rawQuery) = true ∨
           isStrongLexicalRescue row (normalizedQueryOf rawQuery)
             (coreTokensOf rawQuery) = true))) ∧
    (∀ (row : EntryRow) (nq : String) (core : List String),
      isStrongLexicalRescue row nq core = true ↔
        ((4 ≤ nq.length ∧
            containsSub (normalizeText row.text).data nq.data = true) ∨
         (2 ≤ core.length ∧ min 3 core.length ≤
           (core.filter (fun t =>
             containsSub (normalizeText row.text).data t.data)).length))) := by
  constructor
  · intro hsem row hrow hnone
    constructor
    · intro hk
      rw [finalMapsOf_eq_fold] at hk
      rcases finalStep_keys_origin db rawQuery semCands _ _ _ hk with h | hex
      · exfalso
        have := semLexMapsOf_keys db rawQuery semCands _ h
        rw [alGet_eq_none_iff] at hnone
        exact hnone this
      · obtain ⟨row', hrow', hadm', hkey'⟩ := hex
        have hdb : row ∈ db := by
          rcases List.mem_append.mp hrow with h | h
          · exact lexicalRowsOf_subset db rawQuery o semCands row h
          · exact citationRowsOf_subset db rawQuery row h
        have hdb' : row' ∈ db := by
          rcases List.mem_append.mp hrow' with h | h
          · exact lexicalRowsOf_subset db rawQuery o semCands row' h
          · exact citationRowsOf_subset db rawQuery row' h
        have heq : row' = row :=
          List.inj_on_of_nodup_map hnodup hdb' hdb hkey'
        rw [heq] at hadm'
        unfold admitsLexicalRow at hadm'
        have hnotSome : (alGet (semanticScoreByKey db semCands)
            (rowKey row)).isSome = false := by
          rw [hnone]
          rfl
        by_cases hcit : isCitationMatchRow row (parseCitation rawQuery) = true
        · exact Or.inl hcit
        · by_cases hres : isStrongLexicalRescue row (normalizedQueryOf rawQuery)
              (coreTokensOf rawQuery) = true
          · exact Or.inr hres
          · exfalso
            rw [Bool.not_eq_true] at hcit hres
            rw [hsem, hnotSome, hcit, hres] at hadm'
            simp at hadm'
    · intro hcond
      rw [finalMapsOf_eq_fold]
      apply finalStep_admitted_mem db rawQuery semCands _ _ row hrow
      unfold admitsLexicalRow
      rcases hcond with h | h
      · simp [h]
      · simp [h]
  · intro row nq core
    unfold isStrongLexicalRescue
    dsimp only
    split_ifs with h1 h2
    · simp only [true_iff]
      have h1' := (Bool.and_eq_true _ _) ▸ h1
      exact Or.inl ⟨by simpa using h1'.1, h1'.2⟩
    · rw [decide_eq_true_eq]
      constructor
      · intro hm
        exact Or.inr ⟨h2, hm⟩
      · rintro (⟨hl, hc⟩ | ⟨_, hm⟩)
        · refine absurd ?_ h1
          rw [Bool.and_eq_true]
          exact ⟨by simpa using hl, hc⟩
        · exact hm
    · simp only [Bool.false_eq_true, false_iff]
      rintro (⟨hl, hc⟩ | ⟨h2', _⟩)
      · refine h1 ?_
        rw [Bool.and_eq_true]
        exact ⟨by simpa using hl, hc⟩
      · exact h2 h2'

/-- Witness for C7: with one semantic candidate present, the lexical-only row
`rowLex` (query `"anger"` appears verbatim) is admitted to the pool. -/
theorem lexicalAdmission_iff_witness :
    rowKey rowLex ∈ (finalMapsOf dbRescue "anger" {} semCandsRescue).2.map (·.1) :=
  ((lexicalAdmission_iff dbRescue "anger" {} semCandsRescue (by decide)).1
    (by decide) rowLex (by decide) (by decide)).mpr (Or.inr (by decide))

/-! ### Query fusion lemmas -/

lemma dedupFirstAux_sub : ∀ (seen l : List String) (x : String),
    x ∈ dedupFirstAux seen l → x ∈ l := by
  intro seen l
  induction l generalizing seen with
  | nil => intro x hx; cases hx
  | cons t ts ih =>
    intro x hx
    unfold dedupFirstAux at hx
    split_ifs at hx with hmem
    · exact List.mem_cons_of_mem t (ih seen x hx)
    · rcases List.mem_cons.mp hx with rfl | hx'
      · exact List.mem_cons_self x ts
      · exact List.mem_cons_of_mem t (ih (t :: seen) x hx')

lemma dedupFirstAux_nodup : ∀ (seen l : List String),
    (dedupFirstAux seen l).Nodup ∧ ∀ x ∈ dedupFirstAux seen l, x ∉ seen := by
  intro seen l
  induction l generalizing seen with
  | nil => exact ⟨List.nodup_nil, by simp [dedupFirstAux]⟩
  | cons t ts ih =>
    unfold dedupFirstAux
    split_ifs with hmem
    · exact ih seen
    · obtain ⟨hnd, hout⟩ := ih (t :: seen)
      refine ⟨List.nodup_cons.mpr ⟨?_, hnd⟩, ?_⟩
      · intro hin
        exact hout t hin (List.mem_cons_self t seen)
      · intro x hx
        rcases List.mem_cons.mp hx with rfl | hx'
        · exact hmem
        · exact fun hseen => hout x hx' (List.mem_cons_of_mem t hseen)

lemma dedupFirst_nodup (l : List String) : (dedupFirst l).Nodup :=
  (dedupFirstAux_nodup [] l).1

lemma dedupFirst_sub (l : List String) : ∀ x ∈ dedupFirst l, x ∈ l :=
  fun x hx => dedupFirstAux_sub [] l x hx

/-- The fused score of a key after folding one enumerated result list:
existing scores grow by the list's contributions; missing keys appear exactly
when the list contains the key. -/
lemma fuseStep_fold_score :
    ∀ (ps : List (ℕ × SearchResult)) (m : List (String × (ℚ × EntryRow)))
      (k : String),
      (alGet (ps.foldl fuseStep m) k).map (·.1) =
        (if (alGet m k).isNone ∧
            (ps.filter (fun p => keyFor p.2.source p.2.book p.2.entry == k)) = []
         then none
         else some ((((alGet m k).map (·.1)).getD 0) + rrfContribsP k ps)) := by
  intro ps
  induction ps with
  | nil =>
    intro m k
    simp only [List.foldl_nil, List.filter_nil, and_true, rrfContribsP]
    cases hget : alGet m k with
    | none => simp
    | some v => simp
  | cons p ps ih =>
    intro m k
    rw [List.foldl_cons]
    by_cases hkp : (keyFor p.2.source p.2.book p.2.entry == k) = true
    · have hkeq : keyFor p.2.source p.2.book p.2.entry = k := by simpa using hkp
      have hcontrib : rrfContribsP k (p :: ps) =
          (1 : ℚ) / (rrfK + p.1 + 1) + rrfContribsP k ps := by
        unfold rrfContribsP
        rw [List.filter_cons_of_pos (a := p) hkp, List.map_cons, List.sum_cons]
      cases hget : alGet m k with
      | some existing =>
        have hstep : fuseStep m p =
            alSet m k (existing.1 + 1 / (rrfK + p.1 + 1), existing.2) := by
          unfold fuseStep
          simp only [hkeq, hget]
        rw [hstep, ih]
        rw [alGet_alSet_self]
        simp only [hget, Option.isNone_some, Bool.false_eq_true, false_and,
          if_false, Option.map_some', Option.getD_some, hcontrib]
        ring_nf
      | none =>
        have hstep : fuseStep m p =
            alSet m k (1 / (rrfK + p.1 + 1),
              ⟨p.2.source, p.2.book, p.2.entry, p.2.text⟩) := by
          unfold fuseStep
          simp only [hkeq, hget]
        rw [hstep, ih]
        rw [alGet_alSet_self]
        simp only [Option.isNone_some, Bool.false_eq_true, false_and, if_false,
          Option.map_some', Option.getD_some, hget, Option.isNone_none,
          List.filter_cons_of_pos
            (p := fun q => keyFor q.2.source q.2.book q.2.entry == k)
            (a := p) hkp,
          true_and, Option.map_none', Option.getD_none, hcontrib]
        rw [if_neg (List.cons_ne_nil _ _)]
        ring_nf
    · have hkne : keyFor p.2.source p.2.book p.2.entry ≠ k := by simpa using hkp
      have hcontrib : rrfContribsP k (p :: ps) = rrfContribsP k ps := by
        unfold rrfContribsP
        rw [List.filter_cons_of_neg (by simpa using hkne)]
      have hstep : alGet (fuseStep m p) k = alGet m k := by
        unfold fuseStep
        cases hget : alGet m (keyFor p.2.source p.2.book p.2.entry) with
        | none =>
          simp only [hget]
          exact alGet_alSet_ne _ _ _ _ (fun h => hkne h.symm)
        | some existing =>
          simp only [hget]
          exact alGet_alSet_ne _ _ _ _ (fun h => hkne h.symm)
      rw [ih, hstep, hcontrib]
      rw [List.filter_cons_of_neg (by simpa using hkne)]

/-- A key is absent after folding one enumerated list iff it was absent before
and the list does not mention it. -/
lemma fuseStep_fold_none (ps : List (ℕ × SearchResult))
    (m : List (String × (ℚ × EntryRow))) (k : String) :
    alGet (ps.foldl fuseStep m) k = none ↔
      (alGet m k = none ∧ (ps.filter (fun p =>
        keyFor p.2.source p.2.book p.2.entry == k)) = []) := by
  have h := fuseStep_fold_score ps m k
  constructor
  · intro hn
    rw [hn, Option.map_none'] at h
    by_cases hc : ((alGet m k).isNone = true ∧ (ps.filter (fun p =>
        keyFor p.2.source p.2.book p.2.entry == k)) = [])
    · exact ⟨Option.isNone_iff_eq_none.mp hc.1, hc.2⟩
    · rw [if_neg hc] at h
      cases h
  · rintro ⟨h1, h2⟩
    have hmap : (alGet (ps.foldl fuseStep m) k).map (·.1) = none := by
      rw [h, if_pos ⟨by rw [h1]; rfl, h2⟩]
    exact Option.map_eq_none'.mp hmap

/-- The fused score of a key over all per-query lists is the sum of the
per-list contribution sums. -/
lemma fusedOf_score (lists : List (List SearchResult)) (k : String) :
    ∀ v, alGet (fusedOf lists) k = some v →
      v.1 = (lists.map (fun l => rrfContribs k l)).sum := by
  unfold fusedOf
  have main : ∀ (ls : List (List SearchResult))
      (m : List (String × (ℚ × EntryRow))),
      (alGet (ls.foldl (fun m list => list.enum.foldl fuseStep m) m) k).map (·.1) =
        (if (alGet m k).isNone ∧ (∀ l ∈ ls, rrfContribsP k l.enum = 0 ∧
            (l.enum.filter (fun p =>
              keyFor p.2.source p.2.book p.2.entry == k)) = [])
         then none
         else some ((((alGet m k).map (·.1)).getD 0) +
            (ls.map (fun l => rrfContribs k l)).sum)) := by
    intro ls
    induction ls with
    | nil =>
      intro m
      simp only [List.foldl_nil, List.map_nil, List.sum_nil, and_true]
      cases hget : alGet m k with
      | none => simp
      | some v => simp
    | cons l ls ih =>
      intro m
      rw [List.foldl_cons, ih]
      by_cases hl : (l.enum.filter (fun p =>
          keyFor p.2.source p.2.book p.2.entry == k)) = []
      · have hc0 : rrfContribsP k l.enum = 0 := by
          unfold rrfContribsP
          rw [hl]
          rfl
        cases hget : alGet m k with
        | none =>
          have hB : alGet (l.enum.foldl fuseStep m) k = none :=
            (fuseStep_fold_none l.enum m k).mpr ⟨hget, hl⟩
          rw [hB]
          simp only [Option.isNone_none, eq_self_iff_true, true_and,
            Option.map_none', Option.getD_none, List.map_cons, List.sum_cons,
            rrfContribs, hc0, zero_add]
          by_cases hrest : ∀ l' ∈ ls, rrfContribsP k l'.enum = 0 ∧
              (l'.enum.filter (fun p =>
                keyFor p.2.source p.2.book p.2.entry == k)) = []
          · have hall : ∀ l1 ∈ l :: ls, rrfContribsP k l1.enum = 0 ∧
                (l1.enum.filter (fun p =>
                  keyFor p.2.source p.2.book p.2.entry == k)) = [] := by
              intro l1 h1
              rcases List.mem_cons.mp h1 with rfl | h1'
              · exact ⟨hc0, hl⟩
              · exact hrest l1 h1'
            rw [if_pos hrest, if_pos hall]
          · rw [if_neg hrest, if_neg (fun h => hrest (fun l' hl' =>
              h l' (List.mem_cons_of_mem l hl')))]
        | some v =>
          have hB : alGet (l.enum.foldl fuseStep m) k ≠ none := by
            intro hB0
            rw [((fuseStep_fold_none l.enum m k).mp hB0).1] at hget
            cases hget
          have hns : (alGet (l.enum.foldl fuseStep m) k).isNone = false := by
            cases hB0 : alGet (l.enum.foldl fuseStep m) k with
            | none => exact absurd hB0 hB
            | some w => rfl
          have hcondL : ¬ ((alGet (l.enum.foldl fuseStep m) k).isNone = true ∧
              ∀ l' ∈ ls, rrfContribsP k l'.enum = 0 ∧
                (l'.enum.filter (fun p =>
                  keyFor p.2.source p.2.book p.2.entry == k)) = []) := by
            rintro ⟨h1, -⟩
            rw [hns] at h1
            cases h1
          rw [if_neg hcondL]
          simp only [Option.isNone_some, Bool.false_eq_true, false_and,
            if_false]
          rw [fuseStep_fold_score, hget]
          simp only [Option.isNone_some, Bool.false_eq_true, false_and,
            if_false, Option.map_some', Option.getD_some, List.map_cons,
            List.sum_cons, rrfContribs, hc0]
          ring_nf
      · have hsome : ¬ ((alGet m k).isNone = true ∧ (l.enum.filter (fun p =>
            keyFor p.2.source p.2.book p.2.entry == k)) = []) := fun h => hl h.2
        have hB : alGet (l.enum.foldl fuseStep m) k ≠ none := by
          intro hB0
          exact hl ((fuseStep_fold_none l.enum m k).mp hB0).2
        have hns : (alGet (l.enum.foldl fuseStep m) k).isNone = false := by
          cases hB0 : alGet (l.enum.foldl fuseStep m) k with
          | none => exact absurd hB0 hB
          | some w => rfl
        have hcondL : ¬ ((alGet (l.enum.foldl fuseStep m) k).isNone = true ∧
            ∀ l' ∈ ls, rrfContribsP k l'.enum = 0 ∧
              (l'.enum.filter (fun p =>
                keyFor p.2.source p.2.book p.2.entry == k)) = []) := by
          rintro ⟨h1, -⟩
          rw [hns] at h1
          cases h1
        have hcondR : ¬ ((alGet m k).isNone = true ∧
            ∀ l' ∈ l :: ls, rrfContribsP k l'.enum = 0 ∧
              (l'.enum.filter (fun p =>
                keyFor p.2.source p.2.book p.2.entry == k)) = []) :=
          fun h => hl (h.2 l (List.mem_cons_self l ls)).2
        rw [if_neg hcondL, if_neg hcondR]
        rw [fuseStep_fold_score, if_neg hsome]
        simp only [Option.map_some', Option.getD_some, List.map_cons,
          List.sum_cons, rrfContribs]
        ring_nf
  intro v hv
  have hmain := main lists []
  rw [hv, Option.map_some'] at hmain
  by_cases hcond : ((alGet ([] : List (String × (ℚ × EntryRow))) k).isNone = true ∧
      ∀ l ∈ lists, rrfContribsP k l.enum = 0 ∧
        (l.enum.filter (fun p => keyFor p.2.source p.2.book p.2.entry == k)) = [])
  · rw [if_pos hcond] at hmain
    exact absurd hmain (by simp)
  · rw [if_neg hcond] at hmain
    rw [Option.some.inj hmain]
    simp [alGet]

lemma fusedLE_trans (a b c : String × (ℚ × EntryRow)) (hab : fusedLE a b = true)
    (hbc : fusedLE b c = true) : fusedLE a c = true := by
  unfold fusedLE at hab hbc ⊢
  exact decide_eq_true (le_trans (of_decide_eq_true hbc) (of_decide_eq_true hab))

lemma fusedLE_total (a b : String × (ℚ × EntryRow)) :
    (fusedLE a b || fusedLE b a) = true := by
  unfold fusedLE
  rcases le_total b.2.1 a.2.1 with h | h
  · rw [decide_eq_true h, Bool.true_or]
  · rw [decide_eq_true h, Bool.or_true]

/-- C9: `searchEntries` trims its queries, drops empty ones, deduplicates
keeping first occurrences and caps the result at 6; it runs the hybrid
pipeline once per remaining query; every key of the fused map carries the sum,
over the per-query result lists, of the contributions `1/(30 + rank + 1)` of
that key's occurrences at 0-based rank; the fused entries are sorted
descending by fused score and the output is truncated to `maxResults`. -/
theorem searchEntries_rrf_fusion (db : List EntryRow)
    (semOf : String → Except Unit (List SemanticCandidate))
    (queries : List String) (maxResults : ℕ) :
    (uniqueQueriesOf queries).length ≤ 6 ∧
    (uniqueQueriesOf queries).Nodup ∧
    (∀ q ∈ uniqueQueriesOf queries, q ≠ "" ∧ ∃ q0 ∈ queries, q = strTrim q0) ∧
    (uniqueQueriesOf queries ≠ [] →
      (∀ k v,
        alGet (fusedOf ((uniqueQueriesOf queries).map (fun q =>
          searchEntriesHybrid db q (fusionOptions maxResults)
            (semOf (semQueryOf q))))) k = some v →
        v.1 = (((uniqueQueriesOf queries).map (fun q =>
          searchEntriesHybrid db q (fusionOptions maxResults)
            (semOf (semQueryOf q)))).map (fun l => rrfContribs k l)).sum) ∧
      ((fusedOf ((uniqueQueriesOf queries).map (fun q =>
          searchEntriesHybrid db q (fusionOptions maxResults)
            (semOf (semQueryOf q))))).mergeSort fusedLE).Pairwise
        (fun a b => b.2.1 ≤ a.2.1) ∧
      searchEntries db semOf queries maxResults =
        (((fusedOf ((uniqueQueriesOf queries).map (fun q =>
          searchEntriesHybrid db q (fusionOptions maxResults)
            (semOf (semQueryOf q))))).mergeSort fusedLE).take maxResults).map
          (fun p => p.2.2)) ∧
    (searchEntries db semOf queries maxResults).length ≤ maxResults := by
  refine ⟨?_, ?_, ?_, ?_, ?_⟩
  · unfold uniqueQueriesOf
    rw [List.length_take]
    exact min_le_left _ _
  · unfold uniqueQueriesOf
    exact List.Nodup.sublist (List.take_sublist _ _) (dedupFirst_nodup _)
  · intro q hq
    unfold uniqueQueriesOf at hq
    have hq1 : q ∈ dedupFirst
        ((queries.map (fun q => strTrim q)).filter (fun q => q ≠ "")) :=
      List.mem_of_mem_take hq
    have hq2 := dedupFirst_sub _ q hq1
    rcases List.mem_filter.mp hq2 with ⟨hq3, hq4⟩
    refine ⟨by simpa using hq4, ?_⟩
    rcases List.mem_map.mp hq3 with ⟨q0, hq0, rfl⟩
    exact ⟨q0, hq0, rfl⟩
  · intro hne
    refine ⟨fun k => fusedOf_score _ k, ?_, ?_⟩
    · have hs := List.sorted_mergeSort fusedLE_trans fusedLE_total
        (fusedOf ((uniqueQueriesOf queries).map (fun q =>
          searchEntriesHybrid db q (fusionOptions maxResults)
            (semOf (semQueryOf q)))))
      refine hs.imp ?_
      intro a b hab
      unfold fusedLE at hab
      exact of_decide_eq_true hab
    · simp only [searchEntries]
      rw [if_neg hne]
  · simp only [searchEntries]
    by_cases hne : uniqueQueriesOf queries = []
    · rw [if_pos hne]
      exact Nat.zero_le _
    · rw [if_neg hne]
      rw [List.length_map, List.length_take]
      exact min_le_left _ _

/-- Concrete run of the fusion theorem: queries are trimmed, deduplicated and
non-empty, and the output respects `maxResults`. -/
theorem searchEntries_rrf_fusion_witness :
    uniqueQueriesOf ["a", " a ", "b", ""] = ["a", "b"] ∧
    (searchEntries [] (fun _ => Except.error ())
      ["a", " a ", "b", ""] 8).length ≤ 8 :=
  ⟨by decide, (searchEntries_rrf_fusion [] (fun _ => Except.error ())
    ["a", " a ", "b", ""] 8).2.2.2.2⟩

end StoicSage
